import Mathlib

/-
Verification development for the strategize lazy-resolution engine
(src/strategize/lazy_resolution.py, recursion_schemes.py, util.py,
validators.py).

The Python value universe that the engine manipulates is embedded as the
inductive type Node below.  Python exceptions are modelled by the Except
monad with an explicit exception tag; a function that Python lets raise is
Except-valued, and a Python try/except block is a match on that value.
Python dicts are modelled as association lists of key/value pairs in
insertion order (the repository never uses colliding keys).  CPython's
set iteration order is not pinned down by the language, so the work queue
of RecRecord.__resolve__, which the source builds as list(set(self.keys())),
is modelled by an explicit order parameter: every permutation of the keys
is an admissible queue.
-/

set_option maxHeartbeats 1000000

namespace Strategize

/-- Exception tags for the Python exceptions the embedded code can raise. -/
inductive Exc where
  | typeError
  | attributeError
  | keyError
  | invalid
deriving DecidableEq, Repr

/-- Deep embedding of the item predicates passed to DefListAgg.  The
repository uses the default always-true predicate and field projections
such as lambda c: c (charge_status), whose result is used for truthiness. -/
inductive Pred where
  | alwaysTrue
  | fieldTruthy (field : String)
deriving DecidableEq, Repr

/-- The universe of Python values handled by the engine: primitives, the
None object, the primitive type objects used as schema markers, lists and
dicts, the DeferredVal subclasses of lazy_resolution.py (Pure, Ref, DefRef,
Add, Sub, DefListAgg), the Range validator, and LockedList together with
its inner Locked list.  A lockedList node carries both the original element
list (LockedList is a list subclass initialised with it) and the frozen
draw stored in its locked-draw attribute; a locked node is the inner
Locked value.  A defListAgg node stores the already-split reference
(list_ref, a ref or defRef node), the optional per-item path, and the
predicate; its aggregation function is sum, the only one the repository
uses. -/
inductive Node where
  | int (n : Int)
  | str (s : String)
  | bool (b : Bool)
  | noneVal
  | tyInt
  | tyFloat
  | tyStr
  | tyBool
  | list (es : List Node)
  | dict (es : List (Node × Node))
  | pure (v : Node)
  | ref (path : String)
  | defRef (path : String)
  | add (terms : List Node)
  | sub (toSubFrom : Node) (subAmount : Node)
  | defListAgg (listRef : Node) (itemPath : Option String) (pred : Pred)
  | range (min : Node) (max : Node)
  | lockedList (orig : List Node) (lockedDraw : List Node)
  | locked (es : List Node)

/-- String constants used by the concrete schemas in the theorems. -/
def dotS : String := "."

def emptyS : String := ""

def sA : String := "a"

def sB : String := "b"

def sC : String := "c"

def sItems : String := "items"

def sAmount : String := "amount"

def sFlag : String := "flag"

def pathAB : String := "a.b"

def pathItemsAmount : String := "items.amount"

/-- Python dict key equality: primitive keys compare by value, any other
key object compares by identity, which two distinct schema nodes never
share; the repository only ever uses string keys for lookup. -/
def keyEq : Node → Node → Bool
  | Node.str a, Node.str b => a == b
  | Node.int a, Node.int b => a == b
  | Node.bool a, Node.bool b => a == b
  | Node.noneVal, Node.noneVal => true
  | _, _ => false

/-- Python dict.get with a key, returning the stored value when present. -/
def dGetOpt : List (Node × Node) → Node → Option Node
  | [], _ => Option.none
  | (k, v) :: rest, key => if keyEq k key then Option.some v else dGetOpt rest key

/-- Python d.get(k, default-empty-dict) as used by get_deep. -/
def dGet (es : List (Node × Node)) (key : Node) : Node :=
  (dGetOpt es key).getD (Node.dict [])

/-- Python dict item assignment d[k] = v: replaces the value in place when
the key is present, keeping the originally stored key and its insertion
position, and appends at the end otherwise. -/
def dSet : List (Node × Node) → Node → Node → List (Node × Node)
  | [], key, v => [(key, v)]
  | (k, w) :: rest, key, v =>
      if keyEq k key then (k, v) :: rest else (k, w) :: dSet rest key v

/-- The keys of a record, in insertion order. -/
def keysOf (es : List (Node × Node)) : List Node := es.map (fun p => p.1)

/-- The dot character delimiting path segments. -/
def dotChar : Char := Char.ofNat 46

/-- Python str.split on a dot, over the character list (a structurally
recursive transcription, so that closed path lookups reduce): the empty
string splits to one empty segment, exactly as in Python. -/
def splitChars : List Char → List (List Char)
  | [] => [[]]
  | c :: rest =>
      let r := splitChars rest
      if c = dotChar then [] :: r
      else
        match r with
        | h :: t => (c :: h) :: t
        | [] => [[c]]

/-- Python path.split on dots, as a list of segment strings. -/
def splitDots (s : String) : List String :=
  (splitChars s.data).map (fun cs => String.mk cs)

/-- A reduce of d.get(k, default-empty-dict) over path segments:
util.get_deep after splitting.  A step on a non-dict value is Python's
AttributeError, since only dicts have a get method. -/
def getSegs : Node → List String → Except Exc Node
  | d, [] => Except.ok d
  | d, k :: ks =>
      match d with
      | Node.dict es => getSegs (dGet es (Node.str k)) ks
      | _ => Except.error Exc.attributeError

/-- util.get_deep: walk a dot-delimited path through nested dicts, with a
missing key substituted by an empty dict. -/
def get_deep (d : Node) (path : String) : Except Exc Node :=
  getSegs d (splitDots path)

/-- True exactly for instances of the DeferredVal class hierarchy. -/
def isDeferredVal : Node → Bool
  | Node.pure _ => true
  | Node.ref _ => true
  | Node.defRef _ => true
  | Node.add _ => true
  | Node.sub _ _ => true
  | Node.defListAgg _ _ _ => true
  | _ => false

/-- lazy_resolution.pure: wrap a non-deferred value in Pure, pass deferred
values through. -/
def pureWrap (v : Node) : Node :=
  if isDeferredVal v then v else Node.pure v

/-- isinstance(res, Range). -/
def isRange : Node → Bool
  | Node.range _ _ => true
  | _ => false

/-- Python int / bool coercion for arithmetic (bool is an int subclass). -/
def toPyInt : Node → Option Int
  | Node.int n => Option.some n
  | Node.bool b => Option.some (if b then 1 else 0)
  | _ => Option.none

/-- Python addition as used by sum: defined on ints and bools, a TypeError
otherwise (sum starts from the int 0, so no other overload is reachable). -/
def pyAdd (a b : Node) : Except Exc Node :=
  match toPyInt a, toPyInt b with
  | Option.some x, Option.some y => Except.ok (Node.int (x + y))
  | _, _ => Except.error Exc.typeError

/-- Python subtraction on ints and bools, a TypeError otherwise. -/
def pySub (a b : Node) : Except Exc Node :=
  match toPyInt a, toPyInt b with
  | Option.some x, Option.some y => Except.ok (Node.int (x - y))
  | _, _ => Except.error Exc.typeError

/-- Python sum starting from an accumulator. -/
def sumFrom : Node → List Node → Except Exc Node
  | acc, [] => Except.ok acc
  | acc, v :: rest =>
      match pyAdd acc v with
      | Except.ok acc2 => sumFrom acc2 rest
      | Except.error e => Except.error e

/-- Python sum of a realised sequence of values. -/
def sumNodes (vs : List Node) : Except Exc Node := sumFrom (Node.int 0) vs

/-- Python truthiness of a value (used on predicate results). -/
def truthy : Node → Bool
  | Node.bool b => b
  | Node.int n => !(n == 0)
  | Node.str s => !(s == emptyS)
  | Node.list es => !es.isEmpty
  | Node.dict es => !es.isEmpty
  | Node.locked es => !es.isEmpty
  | Node.lockedList orig _ => !orig.isEmpty
  | Node.noneVal => false
  | _ => true

/-- Apply a DefListAgg predicate to an item.  A field projection subscripts
the item: a KeyError on a dict without the field, a TypeError on a
non-dict. -/
def evalPred : Pred → Node → Except Exc Bool
  | Pred.alwaysTrue, _ => Except.ok true
  | Pred.fieldTruthy f, it =>
      match it with
      | Node.dict es =>
          match dGetOpt es (Node.str f) with
          | Option.some v => Except.ok (truthy v)
          | Option.none => Except.error Exc.keyError
      | _ => Except.error Exc.typeError

/-- Python iteration (for item in x): lists and Locked lists yield their
elements, a LockedList yields the original elements it was initialised
with (it is a list subclass), dicts yield their keys, strings yield their
characters, anything else is a TypeError. -/
def pyIter : Node → Except Exc (List Node)
  | Node.list es => Except.ok es
  | Node.locked es => Except.ok es
  | Node.lockedList orig _ => Except.ok orig
  | Node.dict es => Except.ok (es.map (fun p => p.1))
  | Node.str s => Except.ok (s.data.map (fun c => Node.str (String.mk [c])))
  | _ => Except.error Exc.typeError

/-- Break a character list at the first dot, keeping the remainder whole. -/
def breakAtDot : List Char → List Char × Option (List Char)
  | [] => ([], Option.none)
  | c :: rest =>
      if c = dotChar then ([], Option.some rest)
      else
        match breakAtDot rest with
        | (h, t) => (c :: h, t)

/-- Python item_dep_ref.split(dot, 1): the first segment and, when a dot is
present, the remainder of the string. -/
def splitOnce (s : String) : String × Option String :=
  match breakAtDot s.data with
  | (h, Option.none) => (String.mk h, Option.none)
  | (h, Option.some t) => (String.mk h, Option.some (String.mk t))

/-- DefListAgg.__init__ with agg_func = sum: split the item reference once;
a single segment gives a plain Ref over the whole string and an identity
item resolver, two parts give a DefRef over the head and a per-item Ref
over the rest. -/
def mkDefListAgg (itemDepRef : String) (p : Pred) : Node :=
  match splitOnce itemDepRef with
  | (p0, Option.none) => Node.defListAgg (Node.ref p0) Option.none p
  | (p0, Option.some rest) => Node.defListAgg (Node.defRef p0) (Option.some rest) p

/-- Filter the items by the predicate, as the DefListAgg generator does
while sum consumes it; a predicate exception aborts the whole attempt. -/
def filterPred (p : Pred) : List Node → Except Exc (List Node)
  | [] => Except.ok []
  | it :: rest =>
      match evalPred p it with
      | Except.ok b =>
          match filterPred p rest with
          | Except.ok r => Except.ok (if b then it :: r else r)
          | Except.error e => Except.error e
      | Except.error e => Except.error e

/-- Apply DefListAgg's item_resolver to each kept item: the identity for a
single-segment reference, Ref(rest).__resolve__(item) - that is, get_deep
into the item - for a two-part reference. -/
def mapResolver (ip : Option String) : List Node → Except Exc (List Node)
  | [] => Except.ok []
  | it :: rest =>
      match (match ip with
             | Option.none => Except.ok it
             | Option.some pth => get_deep it pth : Except Exc Node) with
      | Except.ok v =>
          match mapResolver ip rest with
          | Except.ok vs => Except.ok (v :: vs)
          | Except.error e => Except.error e
      | Except.error e => Except.error e

mutual

/-- The dispatch of value.__resolve__(context) over every class of the
repository.  Pure returns its stored value; Ref is a get_deep lookup and
propagates its exceptions; DefRef refuses to resolve to a Range validator,
returning itself instead; Add resolves every term and sums, catching only
TypeError by returning itself; Sub subtracts the two resolutions, catching
every exception by returning itself; DefListAgg runs its aggregation
attempt, catching every exception by returning itself; a LockedList and
a Locked list return the frozen draw; every other value has no
__resolve__ attribute, an AttributeError (the engine always reaches
resolution through pureWrap, so that branch is never taken by the pass). -/
def resolve : Node → Node → Except Exc Node
  | Node.pure v, _ => Except.ok v
  | Node.ref p, d => get_deep d p
  | Node.defRef p, d =>
      match get_deep d p with
      | Except.ok res =>
          if isRange res then Except.ok (Node.defRef p) else Except.ok res
      | Except.error e => Except.error e
  | Node.add ts, d =>
      match resolveList ts d with
      | Except.ok vs =>
          match sumNodes vs with
          | Except.ok v => Except.ok v
          | Except.error Exc.typeError => Except.ok (Node.add ts)
          | Except.error e => Except.error e
      | Except.error Exc.typeError => Except.ok (Node.add ts)
      | Except.error e => Except.error e
  | Node.sub a b, d =>
      match (match resolve a d with
             | Except.ok x =>
                 match resolve b d with
                 | Except.ok y => pySub x y
                 | Except.error e => Except.error e
             | Except.error e => Except.error e : Except Exc Node) with
      | Except.ok v => Except.ok v
      | Except.error _ => Except.ok (Node.sub a b)
  | Node.defListAgg lr ip p, d =>
      match (match resolve lr d with
             | Except.ok lv =>
                 match pyIter lv with
                 | Except.ok items =>
                     match filterPred p items with
                     | Except.ok kept =>
                         match mapResolver ip kept with
                         | Except.ok vals => sumNodes vals
                         | Except.error e => Except.error e
                     | Except.error e => Except.error e
                 | Except.error e => Except.error e
             | Except.error e => Except.error e : Except Exc Node) with
      | Except.ok v => Except.ok v
      | Except.error _ => Except.ok (Node.defListAgg lr ip p)
  | Node.lockedList _ dr, _ => Except.ok (Node.locked dr)
  | Node.locked es, _ => Except.ok (Node.locked es)
  | _, _ => Except.error Exc.attributeError

/-- Resolve every term of an Add, as its list comprehension does, stopping
at the first exception. -/
def resolveList : List Node → Node → Except Exc (List Node)
  | [], _ => Except.ok []
  | t :: ts, d =>
      match resolve t d with
      | Except.ok v =>
          match resolveList ts d with
          | Except.ok vs => Except.ok (v :: vs)
          | Except.error e => Except.error e
      | Except.error e => Except.error e

end

mutual

/-- recursion_schemes.fmap with a function that may raise, exactly as the
resolution pass invokes it: a node with an own structural-map capability
(Range over its bounds, LockedList and Locked over the frozen draw)
delegates to it, lists and dicts recurse - a dict over keys and values
both - and every other value is a leaf passed to f.  A LockedList's map
result is the Locked list of the mapped frozen draw (the source also
stores it back into the object; the pass immediately writes the returned
value over the field, which the state-passing model keeps). -/
def fmapE (f : Node → Except Exc Node) : Node → Except Exc Node
  | Node.range mn mx =>
      match fmapE f mn with
      | Except.ok mn2 =>
          match fmapE f mx with
          | Except.ok mx2 => Except.ok (Node.range mn2 mx2)
          | Except.error e => Except.error e
      | Except.error e => Except.error e
  | Node.lockedList _ dr =>
      match fmapEList f dr with
      | Except.ok ds => Except.ok (Node.locked ds)
      | Except.error e => Except.error e
  | Node.locked es =>
      match fmapEList f es with
      | Except.ok rs => Except.ok (Node.locked rs)
      | Except.error e => Except.error e
  | Node.list es =>
      match fmapEList f es with
      | Except.ok rs => Except.ok (Node.list rs)
      | Except.error e => Except.error e
  | Node.dict es =>
      match fmapEPairs f es with
      | Except.ok rs => Except.ok (Node.dict rs)
      | Except.error e => Except.error e
  | v => f v

/-- fmap over the elements of a list, in order. -/
def fmapEList (f : Node → Except Exc Node) : List Node → Except Exc (List Node)
  | [] => Except.ok []
  | v :: rest =>
      match fmapE f v with
      | Except.ok r =>
          match fmapEList f rest with
          | Except.ok rs => Except.ok (r :: rs)
          | Except.error e => Except.error e
      | Except.error e => Except.error e

/-- fmap over the entries of a dict: for each entry the key is mapped,
then the value, in comprehension order. -/
def fmapEPairs (f : Node → Except Exc Node) :
    List (Node × Node) → Except Exc (List (Node × Node))
  | [] => Except.ok []
  | (k, v) :: rest =>
      match fmapE f k with
      | Except.ok k2 =>
          match fmapE f v with
          | Except.ok v2 =>
              match fmapEPairs f rest with
              | Except.ok rs => Except.ok ((k2, v2) :: rs)
              | Except.error e => Except.error e
          | Except.error e => Except.error e
      | Except.error e => Except.error e

end

mutual

/-- recursion_schemes.fmap for a total function: the same dispatch as
fmapE, stated without the exception monad. -/
def fmap (f : Node → Node) : Node → Node
  | Node.range mn mx => Node.range (fmap f mn) (fmap f mx)
  | Node.lockedList _ dr => Node.locked (fmapList f dr)
  | Node.locked es => Node.locked (fmapList f es)
  | Node.list es => Node.list (fmapList f es)
  | Node.dict es => Node.dict (fmapPairs f es)
  | v => f v

/-- fmap of a total function over list elements. -/
def fmapList (f : Node → Node) : List Node → List Node
  | [] => []
  | v :: rest => fmap f v :: fmapList f rest

/-- fmap of a total function over dict entries, keys and values both. -/
def fmapPairs (f : Node → Node) : List (Node × Node) → List (Node × Node)
  | [] => []
  | (k, v) :: rest => (fmap f k, fmap f v) :: fmapPairs f rest

end

/-- The leaf function of the resolution pass: lambda v, pure(v).__resolve__
(self), against the record's current contents. -/
def leafResolve (d : List (Node × Node)) (v : Node) : Except Exc Node :=
  resolve (pureWrap v) (Node.dict d)

/-- One iteration of RecRecord.__resolve__'s queue loop: pop the field
name, fetch its current node, map resolution over it structurally, and
write the replacement back into the record before any later queue entry is
processed.  A queue name missing from the record would be Python's
KeyError; the queue always holds exactly the record's keys. -/
def resolveStep (d : List (Node × Node)) (k : Node) :
    Except Exc (List (Node × Node)) :=
  match dGetOpt d k with
  | Option.some v =>
      match fmapE (leafResolve d) v with
      | Except.ok v2 => Except.ok (dSet d k v2)
      | Except.error e => Except.error e
  | Option.none => Except.error Exc.keyError

/-- RecRecord.__resolve__ with an explicit queue: the source initialises
the queue as list(set(self.keys())), whose order CPython does not pin to
insertion order, so the queue is a parameter; any permutation of the keys
is an admissible run.  The queue never grows (the source never re-enqueues),
so the pass is a fold of resolveStep over the queue. -/
def resolvePassOrd (d : List (Node × Node)) (ord : List Node) :
    Except Exc (List (Node × Node)) :=
  match ord with
  | [] => Except.ok d
  | k :: rest =>
      match resolveStep d k with
      | Except.ok d2 => resolvePassOrd d2 rest
      | Except.error e => Except.error e

/-- The pass run with the queue in insertion order, one admissible set
order. -/
def resolvePassI (d : List (Node × Node)) : Except Exc (List (Node × Node)) :=
  resolvePassOrd d (keysOf d)

/-- Iterated insertion-order passes: RecRecord.__strategize__ chains one
__resolve__ with eight strategize-and-resolve flat-map rounds; on inputs
whose leaves all strategize to constant draws that chain is exactly nine
passes. -/
def iterPassI : Nat → List (Node × Node) → Except Exc (List (Node × Node))
  | 0, d => Except.ok d
  | n + 1, d =>
      match resolvePassI d with
      | Except.ok d2 => iterPassI n d2
      | Except.error e => Except.error e

/-- Iterated passes with the queue in reverse insertion order, another
admissible set order. -/
def iterPassRev : Nat → List (Node × Node) → Except Exc (List (Node × Node))
  | 0, d => Except.ok d
  | n + 1, d =>
      match resolvePassOrd d (keysOf d).reverse with
      | Except.ok d2 => iterPassRev n d2
      | Except.error e => Except.error e

/-- Hypothesis strategies as the engine composes them: constant draws,
possibly bounded integer draws (the bound nodes are stored as the Range
holds them), the primitive generators for the type markers, and the
product and union combinators for dicts and lists. -/
inductive Strat where
  | just (v : Node)
  | integers (mn mx : Node)
  | integersU
  | floatsS
  | textS
  | booleansS
  | dictS (ps : List (Strat × Strat))
  | listS (es : List Strat)

/-- True when a Range bound is eligible for a bounded integer generator:
None or a numeric instance (bools are int instances in Python). -/
def numOrNone : Node → Bool
  | Node.noneVal => true
  | Node.int _ => true
  | Node.bool _ => true
  | _ => false

mutual

/-- recursion_schemes.strategize dispatch.  A value owning __strategize__
wins first: every DeferredVal yields a constant draw of itself, a Range
with numeric-or-absent bounds yields a bounded integer generator and
otherwise a constant draw of itself, a LockedList and a Locked list yield
a constant draw of the frozen Locked draw.  Then int and str instances
(bools included, being int instances) yield constant draws, the primitive
type markers yield the library generators, dicts build a product over
per-entry key/value generator pairs, lists a list generator over the union
of element generators.  Any remaining value reaches the end of the
dispatch chain, which returns Python's None: no generator and no raised
error.  The voluptuous Schema unwrap branch concerns the excluded
validation collaborator and has no constructor here; None itself, float
instances and any foreign object all fall through. -/
def strategize : Node → Option Strat
  | Node.pure v => Option.some (Strat.just (Node.pure v))
  | Node.ref p => Option.some (Strat.just (Node.ref p))
  | Node.defRef p => Option.some (Strat.just (Node.defRef p))
  | Node.add ts => Option.some (Strat.just (Node.add ts))
  | Node.sub a b => Option.some (Strat.just (Node.sub a b))
  | Node.defListAgg lr ip p =>
      Option.some (Strat.just (Node.defListAgg lr ip p))
  | Node.range mn mx =>
      Option.some
        (if numOrNone mn && numOrNone mx then Strat.integers mn mx
         else Strat.just (Node.range mn mx))
  | Node.lockedList _ dr => Option.some (Strat.just (Node.locked dr))
  | Node.locked es => Option.some (Strat.just (Node.locked es))
  | Node.int n => Option.some (Strat.just (Node.int n))
  | Node.str s => Option.some (Strat.just (Node.str s))
  | Node.bool b => Option.some (Strat.just (Node.bool b))
  | Node.tyInt => Option.some Strat.integersU
  | Node.tyFloat => Option.some Strat.floatsS
  | Node.tyStr => Option.some Strat.textS
  | Node.tyBool => Option.some Strat.booleansS
  | Node.dict es =>
      match strategizePairs es with
      | Option.some ps => Option.some (Strat.dictS ps)
      | Option.none => Option.none
  | Node.list es =>
      match strategizeList es with
      | Option.some ss => Option.some (Strat.listS ss)
      | Option.none => Option.none
  | Node.noneVal => Option.none

/-- Strategize every element of a list schema. -/
def strategizeList : List Node → Option (List Strat)
  | [] => Option.some []
  | v :: rest =>
      match strategize v with
      | Option.some s =>
          match strategizeList rest with
          | Option.some ss => Option.some (s :: ss)
          | Option.none => Option.none
      | Option.none => Option.none

/-- Strategize every key/value pair of a dict schema. -/
def strategizePairs : List (Node × Node) → Option (List (Strat × Strat))
  | [] => Option.some []
  | (k, v) :: rest =>
      match strategize k, strategize v with
      | Option.some sk, Option.some sv =>
          match strategizePairs rest with
          | Option.some ps => Option.some ((sk, sv) :: ps)
          | Option.none => Option.none
      | _, _ => Option.none

end

/-- The mutable state of one LockedList object: the original element list
it was initialised with as a list subclass, and the frozen draw its
constructor materialised once with a single example() call and stored in
the locked-draw attribute. -/
structure LLState where
  orig : List Node
  lockedDraw : List Node

/-- LockedList.__resolve__: return the frozen draw as a Locked list; the
state is untouched. -/
def llResolve (s : LLState) : Node × LLState :=
  (Node.locked s.lockedDraw, s)

/-- LockedList.__strategize__: a constant draw of the frozen Locked draw;
the state is untouched. -/
def llStrategize (s : LLState) : Strat × LLState :=
  (Strat.just (Node.locked s.lockedDraw), s)

/-- The two state-observing operations of a LockedList the invariant
speaks about: resolve and convert-to-generator. -/
inductive LLOp where
  | resolveOp
  | strategizeOp

/-- The value produced by a constant-draw strategy. -/
def stratJustVal : Strat → Node
  | Strat.just v => v
  | _ => Node.noneVal

/-- Run a sequence of resolve / convert-to-generator calls against one
LockedList, threading its state and collecting each call's produced value
(for the generator conversion, the value its constant draw yields). -/
def llRun : List LLOp → LLState → List Node × LLState
  | [], s => ([], s)
  | LLOp.resolveOp :: rest, s =>
      match llResolve s with
      | (v, s1) =>
          match llRun rest s1 with
          | (vs, s2) => (v :: vs, s2)
  | LLOp.strategizeOp :: rest, s =>
      match llStrategize s with
      | (st0, s1) =>
          match llRun rest s1 with
          | (vs, s2) => (stratJustVal st0 :: vs, s2)

/-- validators.Range.__call__, transcribed with its comparisons as written:
minres is v less-or-equal min when min is set, maxres is v
greater-or-equal max when max is set, and Invalid is raised exactly when
minres fails while maxres holds. -/
def rangeCall (mn mx : Option Int) (v : Int) : Except Exc Int :=
  let minres := match mn with
                | Option.some m => decide (v ≤ m)
                | Option.none => true
  let maxres := match mx with
                | Option.some m => decide (v ≥ m)
                | Option.none => true
  if !minres && maxres then Except.error Exc.invalid else Except.ok v

/-- Modelled from the spec: the predicate the specification states for the
Range validator, valid(v) = (min unset or v at least min) and (max unset
or v at most max).  Stated here only for comparison with rangeCall. -/
def rangeValid (mn mx : Option Int) (v : Int) : Bool :=
  (match mn with
   | Option.some m => decide (m ≤ v)
   | Option.none => true)
  && (match mx with
      | Option.some m => decide (v ≤ m)
      | Option.none => true)

mutual

/-- True when a reference node (Ref or DefRef) occurs anywhere in a value. -/
def containsRef : Node → Bool
  | Node.ref _ => true
  | Node.defRef _ => true
  | Node.pure v => containsRef v
  | Node.add ts => containsRefList ts
  | Node.sub a b => containsRef a || containsRef b
  | Node.defListAgg lr _ _ => containsRef lr
  | Node.range mn mx => containsRef mn || containsRef mx
  | Node.list es => containsRefList es
  | Node.dict es => containsRefPairs es
  | Node.locked es => containsRefList es
  | Node.lockedList o dr => containsRefList o || containsRefList dr
  | _ => false

/-- containsRef over list elements. -/
def containsRefList : List Node → Bool
  | [] => false
  | v :: rest => containsRef v || containsRefList rest

/-- containsRef over dict entries, keys and values both. -/
def containsRefPairs : List (Node × Node) → Bool
  | [] => false
  | (k, v) :: rest => containsRef k || containsRef v || containsRefPairs rest

end

mutual

/-- True when a value still holds an unresolved node: any DeferredVal, or
a Range validator one of whose bounds is not yet a concrete number. -/
def containsDeferred : Node → Bool
  | Node.pure _ => true
  | Node.ref _ => true
  | Node.defRef _ => true
  | Node.add _ => true
  | Node.sub _ _ => true
  | Node.defListAgg _ _ _ => true
  | Node.range mn mx => !(numOrNone mn && numOrNone mx)
  | Node.list es => containsDeferredList es
  | Node.dict es => containsDeferredPairs es
  | Node.locked es => containsDeferredList es
  | Node.lockedList o dr => containsDeferredList o || containsDeferredList dr
  | _ => false

/-- containsDeferred over list elements. -/
def containsDeferredList : List Node → Bool
  | [] => false
  | v :: rest => containsDeferred v || containsDeferredList rest

/-- containsDeferred over dict entries. -/
def containsDeferredPairs : List (Node × Node) → Bool
  | [] => false
  | (k, v) :: rest =>
      containsDeferred k || containsDeferred v || containsDeferredPairs rest

end

/-- The cyclic two-field record a = Ref(b), b = Ref(a) of the resolution
exhaustion scenario. -/
def cycRec : List (Node × Node) :=
  [(Node.str sA, Node.ref sB), (Node.str sB, Node.ref sA)]

/-- The fixed point the insertion-order pass drives the cyclic record to:
both fields stuck at Ref(a). -/
def cycFix : List (Node × Node) :=
  [(Node.str sA, Node.ref sA), (Node.str sB, Node.ref sA)]

/-- Chain field names for the depth-3 boundary instance. -/
def sF0 : String := "f0"

def sF1 : String := "f1"

def sF2 : String := "f2"

def sF3 : String := "f3"

/-- The depth-3 reference chain: f0 references f1 references f2 references
f3, a literal. -/
def chain3 : List (Node × Node) :=
  [(Node.str sF0, Node.ref sF1), (Node.str sF1, Node.ref sF2),
   (Node.str sF2, Node.ref sF3), (Node.str sF3, Node.int 0)]

/-- The fully resolved form of the depth-3 chain. -/
def resolved3 : List (Node × Node) :=
  [(Node.str sF0, Node.int 0), (Node.str sF1, Node.int 0),
   (Node.str sF2, Node.int 0), (Node.str sF3, Node.int 0)]

/-- A record with no cross-field references whose only field is the doubly
wrapped constant Pure(Pure(5)). -/
def purePureRec : List (Node × Node) :=
  [(Node.str sA, Node.pure (Node.pure (Node.int 5)))]

/-- Run one pass and, on success, a second pass: resolving twice. -/
def twoPassesI (d : List (Node × Node)) : Except Exc (List (Node × Node)) :=
  match resolvePassI d with
  | Except.ok d1 => resolvePassI d1
  | Except.error e => Except.error e

/-- Discriminator reading the reference target stored in a pass result's
second field, used to tell two concrete pass results apart. -/
def sndRefName : Except Exc (List (Node × Node)) → String
  | Except.ok (_ :: (_, Node.ref s) :: _) => s
  | _ => emptyS

/-- Discriminator testing whether a pass result's first field still holds
a Pure wrapper. -/
def headValIsPure : Except Exc (List (Node × Node)) → Bool
  | Except.ok ((_, Node.pure _) :: _) => true
  | _ => false

/-- Modelled from the spec: the manual amount of one item, the integer
stored under its amount sub-field. -/
def amountOf (it : Node) : Int :=
  match get_deep it sAmount with
  | Except.ok (Node.int a) => a
  | _ => 0

/-- Whether the predicate holds of an item, reading the predicate's
successful boolean result. -/
def predHolds (p : Pred) (it : Node) : Bool :=
  match evalPred p it with
  | Except.ok b => b
  | Except.error _ => false

/-- Modelled from the spec: the manual sum of the amount sub-field over
exactly the items satisfying the predicate.  Stated for comparison with
the DefListAgg resolution. -/
def manualSum (p : Pred) (items : List Node) : Int :=
  ((items.filter (fun it => predHolds p it)).map amountOf).sum

/-- The node a chain field holds: a reference to the next field name, or
the literal 0 at the end of the chain. -/
def refOrZero : Option String → Node
  | Option.some nxt => Node.ref nxt
  | Option.none => Node.int 0

/-- The entries of a reference chain over the given field names, each
field referencing the following one and the last referencing nxt, or
holding the literal 0 when there is no nxt. -/
def chainEnt : List String → Option String → List (Node × Node)
  | [], _ => []
  | [k], nxt => [(Node.str k, refOrZero nxt)]
  | k :: k2 :: rest, nxt =>
      (Node.str k, Node.ref k2) :: chainEnt (k2 :: rest) nxt

/-- The reference chain of the given field names, ending in the literal 0:
the chain of depth k over k + 1 field names. -/
def chainOf (ks : List String) : List (Node × Node) :=
  chainEnt ks Option.none

/-- The fully resolved chain: every field holds the literal 0. -/
def resolvedOf (ks : List String) : List (Node × Node) :=
  ks.map (fun k => (Node.str k, Node.int 0))

/-- The intermediate state of a reverse-order pass: a chain over xs whose
last field references the first resolved name, followed by the already
resolved fields ys. -/
def chainState (xs ys : List String) : List (Node × Node) :=
  chainEnt xs ys.head? ++ resolvedOf ys

/-- A record demonstrating in-pass write-back visibility: a = Ref(b),
b = 7, c = Ref(a); processed in insertion order, c reads the substituted
value of a, not its pre-pass Ref node. -/
def demoRec : List (Node × Node) :=
  [(Node.str sA, Node.ref sB), (Node.str sB, Node.int 7),
   (Node.str sC, Node.ref sA)]

/-- The insertion-order pass result of demoRec: every field 7; reading the
pre-pass snapshot instead would have left c holding Ref(b). -/
def demoResolved : List (Node × Node) :=
  [(Node.str sA, Node.int 7), (Node.str sB, Node.int 7),
   (Node.str sC, Node.int 7)]

/-- A concrete item list for the aggregate witness: one flagged item of
amount 3, one unflagged item of amount 5. -/
def itemsW : List Node :=
  [Node.dict [(Node.str sAmount, Node.int 3), (Node.str sFlag, Node.bool true)],
   Node.dict [(Node.str sAmount, Node.int 5), (Node.str sFlag, Node.bool false)]]

mutual

/-- A value is plain when it is built from primitives, None, and lists
and dicts of plain values only: nothing deferred, no validator, no frozen
list anywhere. -/
def plain : Node → Bool
  | Node.int _ => true
  | Node.str _ => true
  | Node.bool _ => true
  | Node.noneVal => true
  | Node.list es => plainList es
  | Node.dict es => plainPairs es
  | _ => false

def plainList : List Node → Bool
  | [] => true
  | v :: rest => plain v && plainList rest

def plainPairs : List (Node × Node) → Bool
  | [] => true
  | (k, v) :: rest => plain k && plain v && plainPairs rest

end

mutual

/-- A value is good when it contains no reference of any kind (Ref,
DefRef, DefListAgg), every Constant in it wraps a plain value, and every
Sum term is a deferred value (as the Sum constructor produces) that is
itself good.  Good values resolve independently of the record contents,
which is what makes a pass over them idempotent. -/
def good : Node → Bool
  | Node.int _ => true
  | Node.str _ => true
  | Node.bool _ => true
  | Node.noneVal => true
  | Node.tyInt => true
  | Node.tyFloat => true
  | Node.tyStr => true
  | Node.tyBool => true
  | Node.pure p => plain p
  | Node.add ts => goodTerms ts
  | Node.sub a b => good a && good b
  | Node.range mn mx => good mn && good mx
  | Node.list es => goodList es
  | Node.dict es => goodPairs es
  | Node.locked es => goodList es
  | Node.lockedList _ dr => goodList dr
  | Node.ref _ => false
  | Node.defRef _ => false
  | Node.defListAgg _ _ _ => false

def goodTerms : List Node → Bool
  | [] => true
  | t :: ts => (isDeferredVal t && good t) && goodTerms ts

def goodList : List Node → Bool
  | [] => true
  | v :: rest => good v && goodList rest

def goodPairs : List (Node × Node) → Bool
  | [] => true
  | (k, v) :: rest => (good k && good v) && goodPairs rest

end

/-- A value is stable when it is good and a further resolution map leaves
it unchanged against every record. -/
def stableVal (v : Node) : Prop :=
  good v = true
  ∧ ∀ d : List (Node × Node), fmapE (leafResolve d) v = Except.ok v

/-- The concrete good record of the idempotence witness. -/
def goodRecW : List (Node × Node) :=
  [(Node.str sA, Node.pure (Node.int 3)),
   (Node.str sB, Node.range (Node.int 2) (Node.int 4))]

/-- A successful Python addition always yields an int. -/
theorem pyAdd_ok {x y r : Node} (h : pyAdd x y = Except.ok r) :
    ∃ i : Int, r = Node.int i := by
  unfold pyAdd at h
  split at h
  · injection h with h2
    exact ⟨_, h2.symm⟩
  · exact Except.noConfusion h

/-- A successful Python subtraction always yields an int. -/
theorem pySub_ok {x y r : Node} (h : pySub x y = Except.ok r) :
    ∃ i : Int, r = Node.int i := by
  unfold pySub at h
  split at h
  · injection h with h2
    exact ⟨_, h2.symm⟩
  · exact Except.noConfusion h

/-- A successful sum from an int accumulator always yields an int. -/
theorem sumFrom_ok :
    ∀ (vs : List Node) (i : Int) {r : Node},
      sumFrom (Node.int i) vs = Except.ok r → ∃ j : Int, r = Node.int j := by
  intro vs
  induction vs with
  | nil =>
      intro i r h
      injection h with h2
      exact ⟨i, h2.symm⟩
  | cons v rest ih =>
      intro i r h
      rw [sumFrom] at h
      cases hp : pyAdd (Node.int i) v with
      | ok acc2 =>
          rw [hp] at h
          obtain ⟨j, rfl⟩ := pyAdd_ok hp
          exact ih j h
      | error e =>
          rw [hp] at h
          exact Except.noConfusion h

/-- A successful Python sum always yields an int. -/
theorem sumNodes_ok {vs : List Node} {r : Node} (h : sumNodes vs = Except.ok r) :
    ∃ j : Int, r = Node.int j :=
  sumFrom_ok vs 0 h

/-- The cyclic fixed point is preserved by every further insertion-order
pass. -/
theorem cycFix_stable : ∀ m, iterPassI m cycFix = Except.ok cycFix := by
  intro m
  induction m with
  | zero => rfl
  | succ k ih =>
      have h : resolvePassI cycFix = Except.ok cycFix := rfl
      simp only [iterPassI, h]
      exact ih

/-- A run of LockedList operations never changes the state, and every
produced value is the frozen Locked draw. -/
theorem llRun_const :
    ∀ (ops : List LLOp) (s : LLState),
      (llRun ops s).2 = s
      ∧ ∀ v ∈ (llRun ops s).1, v = Node.locked s.lockedDraw := by
  intro ops
  induction ops with
  | nil =>
      intro s
      exact ⟨rfl, by intro v hv; cases hv⟩
  | cons op rest ih =>
      intro s
      obtain ⟨h2, h1⟩ := ih s
      cases op with
      | resolveOp =>
          refine ⟨h2, ?_⟩
          intro v hv
          rcases List.mem_cons.mp hv with hv | hv
          · exact hv
          · exact h1 v hv
      | strategizeOp =>
          refine ⟨h2, ?_⟩
          intro v hv
          rcases List.mem_cons.mp hv with hv | hv
          · exact hv
          · exact h1 v hv

/-- C1 (counterexample): Reference resolution is not exception-free and a
missing key does not return the node itself.  Ref with path a.b over the
record with a = 5 reaches a non-dict intermediate value and raises
AttributeError, and Ref(b) over the empty record returns the empty dict,
which is not the Ref node. -/
theorem C1_cex :
    resolve (Node.ref pathAB) (Node.dict [(Node.str sA, Node.int 5)]) =
      Except.error Exc.attributeError
    ∧ resolve (Node.ref sB) (Node.dict []) = Except.ok (Node.dict [])
    ∧ Node.dict [] ≠ Node.ref sB :=
  ⟨rfl, rfl, fun h => Node.noConfusion h⟩

/-- C1 (amended): Constant resolution always returns the stored value, and
Difference and ListAggregate resolution is total for every context - every
internal failure is caught and the node itself is returned, a successful
resolution yielding an int; Reference, DeferredReference and Sum, by
contrast, can propagate exceptions raised inside path lookups, and a
missing key yields an empty mapping rather than the node. -/
theorem C1_amended (ctx v a b lr : Node) (ip : Option String) (p : Pred) :
    resolve (Node.pure v) ctx = Except.ok v
    ∧ (∃ r, resolve (Node.sub a b) ctx = Except.ok r
        ∧ (r = Node.sub a b ∨ ∃ i : Int, r = Node.int i))
    ∧ (∃ r, resolve (Node.defListAgg lr ip p) ctx = Except.ok r
        ∧ (r = Node.defListAgg lr ip p ∨ ∃ i : Int, r = Node.int i)) := by
  refine ⟨rfl, ?_, ?_⟩
  · cases ha : resolve a ctx with
    | error e =>
        refine ⟨Node.sub a b, ?_, Or.inl rfl⟩
        simp only [resolve, ha]
    | ok x =>
        cases hb : resolve b ctx with
        | error e =>
            refine ⟨Node.sub a b, ?_, Or.inl rfl⟩
            simp only [resolve, ha, hb]
        | ok y =>
            cases hp : pySub x y with
            | ok r =>
                obtain ⟨i, rfl⟩ := pySub_ok hp
                refine ⟨Node.int i, ?_, Or.inr ⟨i, rfl⟩⟩
                simp only [resolve, ha, hb, hp]
            | error e =>
                refine ⟨Node.sub a b, ?_, Or.inl rfl⟩
                simp only [resolve, ha, hb, hp]
  · cases ha : resolve lr ctx with
    | error e =>
        refine ⟨Node.defListAgg lr ip p, ?_, Or.inl rfl⟩
        simp only [resolve, ha]
    | ok lv =>
        cases hi : pyIter lv with
        | error e =>
            refine ⟨Node.defListAgg lr ip p, ?_, Or.inl rfl⟩
            simp only [resolve, ha, hi]
        | ok items =>
            cases hf : filterPred p items with
            | error e =>
                refine ⟨Node.defListAgg lr ip p, ?_, Or.inl rfl⟩
                simp only [resolve, ha, hi, hf]
            | ok kept =>
                cases hm : mapResolver ip kept with
                | error e =>
                    refine ⟨Node.defListAgg lr ip p, ?_, Or.inl rfl⟩
                    simp only [resolve, ha, hi, hf, hm]
                | ok vals =>
                    cases hs : sumNodes vals with
                    | ok r =>
                        obtain ⟨i, rfl⟩ := sumNodes_ok hs
                        refine ⟨Node.int i, ?_, Or.inr ⟨i, rfl⟩⟩
                        simp only [resolve, ha, hi, hf, hm, hs]
                    | error e =>
                        refine ⟨Node.defListAgg lr ip p, ?_, Or.inl rfl⟩
                        simp only [resolve, ha, hi, hf, hm, hs]

/-- C2 (code bug): Range.__call__ with its comparisons as written rejects
the in-range value 4 of Range(2, 4), raising Invalid, and accepts the
out-of-range value -1 of Range(0, 10), returning it, while the
specification predicate classifies 4 as valid and -1 as invalid. -/
theorem C2_range_eval :
    rangeCall (Option.some 2) (Option.some 4) 4 = Except.error Exc.invalid
    ∧ rangeValid (Option.some 2) (Option.some 4) 4 = true
    ∧ rangeCall (Option.some 0) (Option.some 10) (-1) = Except.ok (-1)
    ∧ rangeValid (Option.some 0) (Option.some 10) (-1) = false :=
  ⟨rfl, rfl, rfl, rfl⟩

/-- C3 (code bug): on the cyclic record a = Ref(b), b = Ref(a), every
number of resolution rounds terminates at the same fixed point, which
still contains Reference nodes; in particular the nine rounds the
generation pipeline performs return it silently, with no reported
cycle or exhaustion failure. -/
theorem C3_cycle :
    ∀ n, 1 ≤ n →
      iterPassI n cycRec = Except.ok cycFix ∧ containsRefPairs cycFix = true := by
  intro n hn
  refine ⟨?_, rfl⟩
  obtain ⟨m, rfl⟩ : ∃ m, n = m + 1 := ⟨n - 1, by omega⟩
  have h : resolvePassI cycRec = Except.ok cycFix := rfl
  simp only [iterPassI, h]
  exact cycFix_stable m

/-- Witness for C3 at the pipeline's nine rounds. -/
theorem C3_cycle_w :
    iterPassI 9 cycRec = Except.ok cycFix ∧ containsRefPairs cycFix = true :=
  C3_cycle 9 (by decide)

/-- C4 (counterexample): the queue order is observable and is not pinned
to insertion order: the queue b, a is a permutation of the cyclic record's
keys, hence an admissible list(set(keys)) order, and the pass run with it
differs from the pass run in insertion order. -/
theorem C4_cex :
    List.Perm [Node.str sB, Node.str sA] (keysOf cycRec)
    ∧ resolvePassOrd cycRec [Node.str sB, Node.str sA] ≠
        resolvePassOrd cycRec (keysOf cycRec) := by
  refine ⟨List.Perm.swap (Node.str sA) (Node.str sB) [], fun h => ?_⟩
  exact absurd (congrArg sndRefName h) (by decide)

/-- C5 (counterexample): the depth-3 reference chain, processed in the
claim's own insertion order, is already fully resolved after 2 rounds,
refuting that after k - 1 rounds at least one unresolved node remains. -/
theorem C5_cex :
    iterPassI 2 chain3 = Except.ok resolved3
    ∧ containsDeferredPairs resolved3 = false :=
  ⟨rfl, rfl⟩

/-- C6: a LockedList's resolved value and its generator output are both
exactly the frozen draw made at construction, and any sequence of resolve
and convert-to-generator calls leaves the state untouched and produces
that same frozen draw every time. -/
theorem C6_locked (orig draw : List Node) (ctx : Node) (ops : List LLOp) :
    resolve (Node.lockedList orig draw) ctx = Except.ok (Node.locked draw)
    ∧ strategize (Node.lockedList orig draw) =
        Option.some (Strat.just (Node.locked draw))
    ∧ (llRun ops (LLState.mk orig draw)).2 = LLState.mk orig draw
    ∧ ∀ v ∈ (llRun ops (LLState.mk orig draw)).1, v = Node.locked draw := by
  obtain ⟨h2, h1⟩ := llRun_const ops (LLState.mk orig draw)
  exact ⟨rfl, rfl, h2, h1⟩

/-- C8 (code bug): a schema node with no generator-dispatch rule - the
None object is one - falls off the end of the strategize dispatch chain,
which silently produces no generator instead of raising a configuration
error. -/
theorem C8_fallthrough : strategize Node.noneVal = Option.none := rfl

/-- C9 (counterexample): the record whose only field is the doubly wrapped
constant Pure(Pure(5)) contains no cross-field references, yet resolving
it twice peels one more wrapper than resolving it once. -/
theorem C9_cex :
    containsRefPairs purePureRec = false
    ∧ twoPassesI purePureRec ≠ resolvePassI purePureRec := by
  refine ⟨rfl, fun h => ?_⟩
  exact absurd (congrArg headValIsPure h) (by decide)

mutual

/-- The exception-aware structural map run with a total leaf function
never fails and agrees with the total structural map. -/
theorem fmapE_total (f : Node → Node) :
    ∀ v : Node, fmapE (fun x => Except.ok (f x)) v = Except.ok (fmap f v)
  | Node.range mn mx => by
      simp only [fmapE, fmap, fmapE_total f mn, fmapE_total f mx]
  | Node.lockedList o dr => by
      simp only [fmapE, fmap, fmapEList_total f dr]
  | Node.locked es => by
      simp only [fmapE, fmap, fmapEList_total f es]
  | Node.list es => by
      simp only [fmapE, fmap, fmapEList_total f es]
  | Node.dict es => by
      simp only [fmapE, fmap, fmapEPairs_total f es]
  | Node.int _ => rfl
  | Node.str _ => rfl
  | Node.bool _ => rfl
  | Node.noneVal => rfl
  | Node.tyInt => rfl
  | Node.tyFloat => rfl
  | Node.tyStr => rfl
  | Node.tyBool => rfl
  | Node.pure _ => rfl
  | Node.ref _ => rfl
  | Node.defRef _ => rfl
  | Node.add _ => rfl
  | Node.sub _ _ => rfl
  | Node.defListAgg _ _ _ => rfl

/-- List version of fmapE_total. -/
theorem fmapEList_total (f : Node → Node) :
    ∀ es : List Node,
      fmapEList (fun x => Except.ok (f x)) es = Except.ok (fmapList f es)
  | [] => rfl
  | v :: rest => by
      simp only [fmapEList, fmapList, fmapE_total f v, fmapEList_total f rest]

/-- Dict-entry version of fmapE_total. -/
theorem fmapEPairs_total (f : Node → Node) :
    ∀ es : List (Node × Node),
      fmapEPairs (fun x => Except.ok (f x)) es = Except.ok (fmapPairs f es)
  | [] => rfl
  | (k, v) :: rest => by
      simp only [fmapEPairs, fmapPairs, fmapE_total f k, fmapE_total f v,
        fmapEPairs_total f rest]

end

/-- The total structural map of dict entries is the entry-wise map of keys
and values. -/
theorem fmapPairs_eq_map (f : Node → Node) :
    ∀ es : List (Node × Node),
      fmapPairs f es = es.map (fun kv => (fmap f kv.1, fmap f kv.2))
  | [] => rfl
  | (k, v) :: rest => by
      simp only [fmapPairs, List.map_cons, fmapPairs_eq_map f rest]

/-- C10: the structural map applies the leaf function recursively to a
mapping's keys as well as its values - the result maps each original
entry (k, v) to (fmap f k, fmap f v) - so schema nodes used as mapping
keys are also rewritten during resolution, which invokes this map with
the resolving leaf function. -/
theorem C10_fmap_keys (f : Node → Node) (es : List (Node × Node)) :
    fmapE (fun x => Except.ok (f x)) (Node.dict es) =
      Except.ok (Node.dict (es.map (fun kv => (fmap f kv.1, fmap f kv.2))))
    ∧ fmap f (Node.dict es) =
      Node.dict (es.map (fun kv => (fmap f kv.1, fmap f kv.2))) := by
  have h := fmapE_total f (Node.dict es)
  have hp := fmapPairs_eq_map f es
  constructor
  · rw [h]
    simp only [fmap, hp]
  · simp only [fmap, hp]

/-- Filtering by a predicate that evaluates cleanly on every item equals
the list filter by the predicate's boolean result. -/
theorem filterPred_ok (p : Pred) :
    ∀ items : List Node,
      (∀ it ∈ items, ∃ b, evalPred p it = Except.ok b) →
      filterPred p items =
        Except.ok (items.filter (fun it => predHolds p it)) := by
  intro items
  induction items with
  | nil => intro _; rfl
  | cons it rest ih =>
      intro h
      obtain ⟨b, hb⟩ := h it (List.mem_cons_self it rest)
      have hr := ih (fun x hx => h x (List.mem_cons_of_mem it hx))
      have hph : predHolds p it = b := by unfold predHolds; rw [hb]
      rw [filterPred, hb, hr]
      simp only [List.filter_cons, hph]

/-- Mapping the amount item resolver over items whose amount field is a
concrete int produces exactly those ints. -/
theorem mapResolver_amount :
    ∀ kept : List Node,
      (∀ it ∈ kept, ∃ a : Int, get_deep it sAmount = Except.ok (Node.int a)) →
      mapResolver (Option.some sAmount) kept =
        Except.ok (kept.map (fun it => Node.int (amountOf it))) := by
  intro kept
  induction kept with
  | nil => intro _; rfl
  | cons it rest ih =>
      intro h
      obtain ⟨a, ha⟩ := h it (List.mem_cons_self it rest)
      have hr := ih (fun x hx => h x (List.mem_cons_of_mem it hx))
      have hao : amountOf it = a := by unfold amountOf; rw [ha]
      simp only [mapResolver, ha, hr, List.map_cons, hao]

/-- Python sum over a list of int nodes, from an int accumulator. -/
theorem sumFrom_ints :
    ∀ (as : List Int) (i : Int),
      sumFrom (Node.int i) (as.map (fun a => Node.int a)) =
        Except.ok (Node.int (i + as.sum)) := by
  intro as
  induction as with
  | nil => intro i; simp [sumFrom]
  | cons a rest ih =>
      intro i
      rw [List.map_cons, sumFrom]
      show sumFrom (Node.int (i + a)) (rest.map (fun a => Node.int a)) = _
      rw [ih (i + a)]
      have : i + a + rest.sum = i + (a :: rest).sum := by
        rw [List.sum_cons]; omega
      rw [this]

/-- Python sum over a list of int nodes. -/
theorem sumNodes_ints (as : List Int) :
    sumNodes (as.map (fun a => Node.int a)) = Except.ok (Node.int as.sum) := by
  unfold sumNodes
  rw [sumFrom_ints as 0]
  rw [Int.zero_add]

/-- C7: resolving ListAggregate(sum, items.amount, predicate) against a
record whose items field holds a concrete list equals the manual sum of
each item's amount sub-field over exactly the items the predicate holds
of, whenever each item's amount is a concrete int and the predicate
evaluates cleanly on every item; the empty list and an all-false
predicate are instances, both summing to 0. -/
theorem C7_listagg (es : List (Node × Node)) (items : List Node) (p : Pred)
    (h1 : dGetOpt es (Node.str sItems) = Option.some (Node.list items))
    (h2 : ∀ it ∈ items, ∃ b, evalPred p it = Except.ok b)
    (h3 : ∀ it ∈ items, ∃ a : Int, get_deep it sAmount = Except.ok (Node.int a)) :
    resolve (mkDefListAgg pathItemsAmount p) (Node.dict es) =
      Except.ok (Node.int (manualSum p items)) := by
  have hmk : mkDefListAgg pathItemsAmount p =
      Node.defListAgg (Node.defRef sItems) (Option.some sAmount) p := rfl
  have hgd : get_deep (Node.dict es) sItems = Except.ok (Node.list items) := by
    have hsd : splitDots sItems = [sItems] := rfl
    unfold get_deep
    rw [hsd]
    simp only [getSegs, dGet, h1, Option.getD]
  have hdr : resolve (Node.defRef sItems) (Node.dict es) =
      Except.ok (Node.list items) := by
    simp only [resolve, hgd, isRange]
    rfl
  have hit : pyIter (Node.list items) = Except.ok items := rfl
  have hf := filterPred_ok p items h2
  have hm : mapResolver (Option.some sAmount)
        (items.filter (fun it => predHolds p it)) =
      Except.ok ((items.filter (fun it => predHolds p it)).map
        (fun it => Node.int (amountOf it))) := by
    refine mapResolver_amount _ (fun x hx => h3 x ?_)
    exact (List.mem_filter.mp hx).1
  have hmap : (items.filter (fun it => predHolds p it)).map
        (fun it => Node.int (amountOf it)) =
      ((items.filter (fun it => predHolds p it)).map amountOf).map
        (fun a => Node.int a) := by
    rw [List.map_map]
    rfl
  have hsum := sumNodes_ints ((items.filter (fun it => predHolds p it)).map amountOf)
  rw [hmk]
  generalize hg : Node.defRef sItems = lr
  rw [hg] at hdr
  simp only [resolve, hdr, hit, hf, hm, hmap, hsum]
  rfl

/-- Witness for C7 at a two-item list with a boolean flag predicate: only
the flagged item of amount 3 is kept. -/
theorem C7_listagg_w :
    resolve (mkDefListAgg pathItemsAmount (Pred.fieldTruthy sFlag))
        (Node.dict [(Node.str sItems, Node.list itemsW)]) =
      Except.ok (Node.int (manualSum (Pred.fieldTruthy sFlag) itemsW))
    ∧ manualSum (Pred.fieldTruthy sFlag) itemsW = 3 := by
  refine ⟨C7_listagg _ itemsW (Pred.fieldTruthy sFlag) rfl ?_ ?_, rfl⟩
  · intro it hit
    rcases List.mem_cons.mp hit with rfl | hit
    · exact ⟨true, rfl⟩
    rcases List.mem_cons.mp hit with rfl | hit
    · exact ⟨false, rfl⟩
    cases hit
  · intro it hit
    rcases List.mem_cons.mp hit with rfl | hit
    · exact ⟨3, rfl⟩
    rcases List.mem_cons.mp hit with rfl | hit
    · exact ⟨5, rfl⟩
    cases hit

/-- The pass over a concatenated queue is the pass over the first part
followed by the pass of the second part on its result. -/
theorem resolvePassOrd_append :
    ∀ (o1 : List Node) (d : List (Node × Node)) (o2 : List Node),
      resolvePassOrd d (o1 ++ o2) =
        (match resolvePassOrd d o1 with
         | Except.ok d1 => resolvePassOrd d1 o2
         | Except.error e => Except.error e) := by
  intro o1
  induction o1 with
  | nil => intro d o2; rfl
  | cons k rest ih =>
      intro d o2
      rw [List.cons_append, resolvePassOrd]
      cases h : resolveStep d k with
      | ok d2 =>
          simp only [ih, resolvePassOrd, h]
      | error e =>
          simp only [resolvePassOrd, h]

/-- C4 (amended): the pass is sequential in its queue - for a queue split
anywhere around a field name k, the whole pass equals the pass over the
earlier entries, then the single step at k on that intermediate record,
then the pass over the later entries, so each replacement is written back
before later entries are processed; and on the record a = Ref(b), b = 7,
c = Ref(a) the insertion-order pass leaves c holding 7, the substituted
value of a written back earlier in the same pass.  The queue itself is an
unspecified permutation of the keys, not necessarily insertion order. -/
theorem C4_amended (d : List (Node × Node)) (o1 o2 : List Node) (k : Node) :
    resolvePassOrd d (o1 ++ k :: o2) =
      (match resolvePassOrd d o1 with
       | Except.ok d1 =>
           (match resolveStep d1 k with
            | Except.ok d2 => resolvePassOrd d2 o2
            | Except.error e => Except.error e)
       | Except.error e => Except.error e)
    ∧ resolvePassOrd demoRec (keysOf demoRec) = Except.ok demoResolved := by
  refine ⟨?_, rfl⟩
  rw [resolvePassOrd_append o1 d (k :: o2)]
  cases h1 : resolvePassOrd d o1 with
  | ok d1 => simp only [resolvePassOrd]
  | error e => rfl

/-- A lookup skips leading entries whose keys all differ from the key. -/
theorem dGetOpt_append_right :
    ∀ (A B : List (Node × Node)) (k : Node),
      (∀ p ∈ A, keyEq p.1 k = false) →
      dGetOpt (A ++ B) k = dGetOpt B k := by
  intro A
  induction A with
  | nil => intro B k _; rfl
  | cons p rest ih =>
      intro B k h
      obtain ⟨k0, v0⟩ := p
      have hk := h (k0, v0) (List.mem_cons_self _ _)
      rw [List.cons_append, dGetOpt, hk]
      simp only [Bool.false_eq_true, if_false]
      exact ih B k (fun q hq => h q (List.mem_cons_of_mem _ hq))

/-- An assignment skips leading entries whose keys all differ from the
key. -/
theorem dSet_append_right :
    ∀ (A B : List (Node × Node)) (k v : Node),
      (∀ p ∈ A, keyEq p.1 k = false) →
      dSet (A ++ B) k v = A ++ dSet B k v := by
  intro A
  induction A with
  | nil => intro B k v _; rfl
  | cons p rest ih =>
      intro B k v h
      obtain ⟨k0, v0⟩ := p
      have hk := h (k0, v0) (List.mem_cons_self _ _)
      rw [List.cons_append, dSet, hk]
      simp only [Bool.false_eq_true, if_false, List.cons_append]
      rw [ih B k v (fun q hq => h q (List.mem_cons_of_mem _ hq))]

/-- Writing back the value a key already holds leaves the dict unchanged. -/
theorem dSet_self :
    ∀ (d : List (Node × Node)) (k v : Node),
      dGetOpt d k = Option.some v → dSet d k v = d := by
  intro d
  induction d with
  | nil => intro k v h; exact Option.noConfusion h
  | cons p rest ih =>
      intro k v h
      obtain ⟨k0, v0⟩ := p
      rw [dGetOpt] at h
      rw [dSet]
      cases hk : keyEq k0 k with
      | true =>
          rw [hk] at h
          simp only [if_pos] at h
          injection h with h2
          simp [hk, h2]
      | false =>
          rw [hk] at h
          simp only [Bool.false_eq_true, if_false] at h
          simp only [hk, Bool.false_eq_true, if_false]
          rw [ih k v h]

/-- Appending a last field to a chain splits it into a chain referencing
that field followed by the field's own entry. -/
theorem chainEnt_append_last :
    ∀ (xs : List String) (x : String) (nxt : Option String),
      chainEnt (xs ++ [x]) nxt =
        chainEnt xs (Option.some x) ++ [(Node.str x, refOrZero nxt)] := by
  intro xs
  induction xs with
  | nil => intro x nxt; rfl
  | cons k rest ih =>
      intro x nxt
      cases rest with
      | nil => rfl
      | cons k2 rest2 =>
          show chainEnt (k :: k2 :: (rest2 ++ [x])) nxt = _
          rw [chainEnt]
          have ih2 := ih x nxt
          rw [List.cons_append] at ih2
          rw [ih2, chainEnt]
          rfl

/-- Every chain entry's key is one of the chain's field names. -/
theorem chainEnt_key_mem :
    ∀ (ks : List String) (nxt : Option String) (p : Node × Node),
      p ∈ chainEnt ks nxt → ∃ k ∈ ks, p.1 = Node.str k
  | [], _, p, h => absurd h (List.not_mem_nil p)
  | [k], _, p, h => by
      rw [chainEnt] at h
      rcases List.mem_singleton.mp h with rfl
      exact ⟨k, List.mem_singleton.mpr rfl, rfl⟩
  | k :: k2 :: rest, nxt, p, h => by
      rw [chainEnt] at h
      rcases List.mem_cons.mp h with rfl | h2
      · exact ⟨k, List.mem_cons_self _ _, rfl⟩
      · obtain ⟨k3, hk3, hp⟩ := chainEnt_key_mem (k2 :: rest) nxt p h2
        exact ⟨k3, List.mem_cons_of_mem _ hk3, hp⟩

/-- A name outside the chain's fields matches none of its keys. -/
theorem chainEnt_no_key (xs : List String) (nxt : Option String) (x : String)
    (hx : x ∉ xs) :
    ∀ p ∈ chainEnt xs nxt, keyEq p.1 (Node.str x) = false := by
  intro p hp
  obtain ⟨k, hk, hp1⟩ := chainEnt_key_mem xs nxt p hp
  rw [hp1]
  show (k == x) = false
  exact beq_eq_false_iff_ne.mpr (fun h => hx (h ▸ hk))

/-- A name outside the resolved fields matches none of their keys. -/
theorem resolvedOf_no_key (ys : List String) (x : String) (hx : x ∉ ys) :
    ∀ p ∈ resolvedOf ys, keyEq p.1 (Node.str x) = false := by
  intro p hp
  obtain ⟨k, hk, rfl⟩ := List.mem_map.mp hp
  show (k == x) = false
  exact beq_eq_false_iff_ne.mpr (fun h => hx (h ▸ hk))

/-- Looking up a resolved field yields the literal 0. -/
theorem dGetOpt_resolvedOf :
    ∀ (ks : List String) (s : String), s ∈ ks →
      dGetOpt (resolvedOf ks) (Node.str s) = Option.some (Node.int 0) := by
  intro ks
  induction ks with
  | nil => intro s h; cases h
  | cons k rest ih =>
      intro s h
      rw [resolvedOf, List.map_cons, dGetOpt]
      cases hk : keyEq (Node.str k) (Node.str s) with
      | true => simp [hk]
      | false =>
          simp only [hk, Bool.false_eq_true, if_false]
          have hsr : s ∈ rest := by
            rcases List.mem_cons.mp h with rfl | h2
            · exact absurd hk (by simp [keyEq])
            · exact h2
          exact ih s hsr

/-- One reverse-order step: with every later field already resolved, the
last unresolved field's one-hop reference reads a literal and the field is
written back as the literal 0. -/
theorem stepRev (xs ys : List String) (x : String)
    (hnd : (xs ++ x :: ys).Nodup)
    (hs : ∀ s ∈ xs ++ x :: ys, splitDots s = [s]) :
    resolveStep (chainState (xs ++ [x]) ys) (Node.str x) =
      Except.ok (chainState xs (x :: ys)) := by
  obtain ⟨ndxs, ndx, disj⟩ := List.nodup_append.mp hnd
  have hxxs : x ∉ xs := fun hmem => disj hmem (List.mem_cons_self _ _)
  have hrec : chainState (xs ++ [x]) ys =
      chainEnt xs (Option.some x) ++
        ((Node.str x, refOrZero ys.head?) :: resolvedOf ys) := by
    unfold chainState
    rw [chainEnt_append_last, List.append_assoc]
    rfl
  have hget : dGetOpt (chainState (xs ++ [x]) ys) (Node.str x) =
      Option.some (refOrZero ys.head?) := by
    rw [hrec,
      dGetOpt_append_right _ _ _ (chainEnt_no_key xs (Option.some x) x hxxs),
      dGetOpt]
    simp [keyEq]
  have hres : fmapE (leafResolve (chainState (xs ++ [x]) ys))
      (refOrZero ys.head?) = Except.ok (Node.int 0) := by
    cases ys with
    | nil => rfl
    | cons h ys' =>
        have hh1 : h ∈ xs ++ x :: (h :: ys') :=
          List.mem_append_right _ (List.mem_cons_of_mem _ (List.mem_cons_self _ _))
        have hsplit := hs h hh1
        have hhx : ¬(x = h) := by
          intro e
          exact (List.nodup_cons.mp ndx).1 (e ▸ List.mem_cons_self h ys')
        have hhxs : h ∉ xs := fun hmem =>
          disj hmem (List.mem_cons_of_mem _ (List.mem_cons_self _ _))
        have hget2 : dGetOpt (chainState (xs ++ [x]) (h :: ys')) (Node.str h) =
            Option.some (Node.int 0) := by
          rw [hrec,
            dGetOpt_append_right _ _ _ (chainEnt_no_key xs (Option.some x) h hhxs),
            dGetOpt]
          have hxh : keyEq (Node.str x) (Node.str h) = false :=
            beq_eq_false_iff_ne.mpr hhx
          rw [hxh]
          simp only [Bool.false_eq_true, if_false]
          exact dGetOpt_resolvedOf (h :: ys') h (List.mem_cons_self _ _)
        show resolve (pureWrap (Node.ref h))
            (Node.dict (chainState (xs ++ [x]) (h :: ys'))) = _
        show get_deep (Node.dict (chainState (xs ++ [x]) (h :: ys'))) h = _
        unfold get_deep
        rw [hsplit, getSegs]
        unfold dGet
        rw [hget2]
        rfl
  have hset : dSet (chainState (xs ++ [x]) ys) (Node.str x) (Node.int 0) =
      chainState xs (x :: ys) := by
    rw [hrec,
      dSet_append_right _ _ _ _ (chainEnt_no_key xs (Option.some x) x hxxs),
      dSet]
    simp [keyEq]
    rfl
  simp only [resolveStep, hget, hres, hset]

/-- A full reverse-order pass resolves the whole remaining chain. -/
theorem passRev :
    ∀ (xs ys : List String),
      (xs ++ ys).Nodup → (∀ s ∈ xs ++ ys, splitDots s = [s]) →
      resolvePassOrd (chainState xs ys) ((xs.map Node.str).reverse) =
        Except.ok (resolvedOf (xs ++ ys)) := by
  intro xs
  induction xs using List.reverseRecOn with
  | nil => intro ys _ _; rfl
  | append_singleton xs' x ih =>
      intro ys hnd hs
      have hassoc : (xs' ++ [x]) ++ ys = xs' ++ (x :: ys) := by
        rw [List.append_assoc]
        rfl
      rw [hassoc] at hnd hs ⊢
      have hord : ((xs' ++ [x]).map Node.str).reverse =
          Node.str x :: (xs'.map Node.str).reverse := by
        rw [List.map_append, List.reverse_append]
        rfl
      rw [hord, resolvePassOrd]
      simp only [stepRev xs' ys x hnd hs]
      exact ih (x :: ys) hnd hs

/-- A pass whose queue names only resolved fields leaves the resolved
record unchanged. -/
theorem passResolved :
    ∀ (ord : List Node) (ks : List String),
      (∀ k ∈ ord, ∃ s ∈ ks, k = Node.str s) →
      resolvePassOrd (resolvedOf ks) ord = Except.ok (resolvedOf ks) := by
  intro ord
  induction ord with
  | nil => intro ks _; rfl
  | cons k rest ih =>
      intro ks h
      obtain ⟨s, hsm, rfl⟩ := h k (List.mem_cons_self _ _)
      have hget := dGetOpt_resolvedOf ks s hsm
      have hfm : fmapE (leafResolve (resolvedOf ks)) (Node.int 0) =
          Except.ok (Node.int 0) := rfl
      have hset := dSet_self (resolvedOf ks) (Node.str s) (Node.int 0) hget
      have hstep : resolveStep (resolvedOf ks) (Node.str s) =
          Except.ok (resolvedOf ks) := by
        simp only [resolveStep, hget, hfm, hset]
      rw [resolvePassOrd]
      simp only [hstep]
      exact ih ks (fun q hq => h q (List.mem_cons_of_mem _ hq))

/-- The keys of a chain are its field names. -/
theorem keysOf_chainEnt :
    ∀ (ks : List String) (nxt : Option String),
      keysOf (chainEnt ks nxt) = ks.map Node.str
  | [], _ => rfl
  | [_], _ => rfl
  | k :: k2 :: rest, nxt => by
      rw [chainEnt]
      show Node.str k :: keysOf (chainEnt (k2 :: rest) nxt) = _
      rw [keysOf_chainEnt (k2 :: rest) nxt]
      rfl

/-- The keys of the resolved chain are its field names. -/
theorem keysOf_resolvedOf (ks : List String) :
    keysOf (resolvedOf ks) = ks.map Node.str := by
  unfold keysOf resolvedOf
  rw [List.map_map]
  rfl

/-- The resolved chain contains no unresolved node. -/
theorem resolvedOf_no_deferred :
    ∀ ks : List String, containsDeferredPairs (resolvedOf ks) = false
  | [] => rfl
  | k :: rest => by
      show containsDeferredPairs ((Node.str k, Node.int 0) :: resolvedOf rest) = false
      rw [containsDeferredPairs, resolvedOf_no_deferred rest]
      rfl

/-- Further reverse-order passes leave the resolved chain unchanged. -/
theorem iterRev_resolved :
    ∀ (m : Nat) (ks : List String),
      iterPassRev m (resolvedOf ks) = Except.ok (resolvedOf ks) := by
  intro m
  induction m with
  | zero => intro ks; rfl
  | succ m ih =>
      intro ks
      have hpr : resolvePassOrd (resolvedOf ks)
          ((keysOf (resolvedOf ks)).reverse) = Except.ok (resolvedOf ks) := by
        apply passResolved
        intro k hk
        rw [keysOf_resolvedOf, List.mem_reverse] at hk
        obtain ⟨s, hsin, rfl⟩ := List.mem_map.mp hk
        exact ⟨s, hsin, rfl⟩
      rw [iterPassRev]
      simp only [hpr]
      exact ih ks

/-- C5 (amended): for every reference chain of any depth k, with distinct
single-segment field names, the record is fully resolved - no unresolved
node remains - after every number of rounds from 1 on, in particular
within k rounds, when the queue runs in reverse field order (an admissible
set order); together with the counterexample this replaces the claim's
lower bound, since after k - 1 rounds the record can already be fully
resolved. -/
theorem C5_amended (ks : List String) (hnd : ks.Nodup)
    (hs : ∀ s ∈ ks, splitDots s = [s]) :
    ∀ r : Nat, 1 ≤ r →
      iterPassRev r (chainOf ks) = Except.ok (resolvedOf ks)
      ∧ containsDeferredPairs (resolvedOf ks) = false := by
  intro r hr
  refine ⟨?_, resolvedOf_no_deferred ks⟩
  obtain ⟨m, rfl⟩ : ∃ m, r = m + 1 := ⟨r - 1, by omega⟩
  have hnd' : (ks ++ ([] : List String)).Nodup := by
    rw [List.append_nil]; exact hnd
  have hs' : ∀ s ∈ ks ++ ([] : List String), splitDots s = [s] := by
    rw [List.append_nil]; exact hs
  have hp1 : resolvePassOrd (chainOf ks) ((keysOf (chainOf ks)).reverse) =
      Except.ok (resolvedOf ks) := by
    have hka : keysOf (chainOf ks) = ks.map Node.str := keysOf_chainEnt ks Option.none
    have h0 : chainOf ks = chainState ks [] := by
      unfold chainOf chainState
      show chainEnt ks Option.none = chainEnt ks Option.none ++ resolvedOf []
      rw [show resolvedOf [] = ([] : List (Node × Node)) from rfl, List.append_nil]
    rw [hka, h0]
    have hpass := passRev ks [] hnd' hs'
    rw [List.append_nil] at hpass
    exact hpass
  rw [iterPassRev]
  simp only [hp1]
  exact iterRev_resolved m ks

/-- Both conjuncts of a true boolean conjunction. -/
theorem bool_and_parts {a b : Bool} (h : (a && b) = true) :
    a = true ∧ b = true := by
  cases a <;> cases b <;> simp_all

/-- Witness for C5 at the chain a, b, c (depth 2) after one round. -/
theorem C5_amended_w :
    iterPassRev 1 (chainOf [sA, sB, sC]) = Except.ok (resolvedOf [sA, sB, sC])
    ∧ containsDeferredPairs (resolvedOf [sA, sB, sC]) = false :=
  C5_amended [sA, sB, sC] (by decide) (by decide) 1 (by decide)

mutual

/-- A plain value is good. -/
theorem plain_good : ∀ v : Node, plain v = true → good v = true
  | Node.int _, _ => rfl
  | Node.str _, _ => rfl
  | Node.bool _, _ => rfl
  | Node.noneVal, _ => rfl
  | Node.list es, h => plainList_good es h
  | Node.dict es, h => plainPairs_good es h
  | Node.tyInt, h => Bool.noConfusion h
  | Node.tyFloat, h => Bool.noConfusion h
  | Node.tyStr, h => Bool.noConfusion h
  | Node.tyBool, h => Bool.noConfusion h
  | Node.pure _, h => Bool.noConfusion h
  | Node.ref _, h => Bool.noConfusion h
  | Node.defRef _, h => Bool.noConfusion h
  | Node.add _, h => Bool.noConfusion h
  | Node.sub _ _, h => Bool.noConfusion h
  | Node.defListAgg _ _ _, h => Bool.noConfusion h
  | Node.range _ _, h => Bool.noConfusion h
  | Node.lockedList _ _, h => Bool.noConfusion h
  | Node.locked _, h => Bool.noConfusion h

/-- A list of plain values is a list of good values. -/
theorem plainList_good : ∀ es : List Node, plainList es = true → goodList es = true
  | [], _ => rfl
  | v :: rest, h => by
      have h2 := bool_and_parts h
      show (good v && goodList rest) = true
      rw [plain_good v h2.1, plainList_good rest h2.2]
      rfl

/-- Plain dict entries are good dict entries. -/
theorem plainPairs_good :
    ∀ es : List (Node × Node), plainPairs es = true → goodPairs es = true
  | [], _ => rfl
  | (k, v) :: rest, h => by
      have h2 := bool_and_parts h
      have h3 := bool_and_parts h2.1
      show ((good k && good v) && goodPairs rest) = true
      rw [plain_good k h3.1, plain_good v h3.2, plainPairs_good rest h2.2]
      rfl

end

mutual

/-- A plain value is a fixed point of the resolution map over any record. -/
theorem plainFix :
    ∀ p : Node, plain p = true →
      ∀ d : List (Node × Node), fmapE (leafResolve d) p = Except.ok p
  | Node.int _, _, _ => rfl
  | Node.str _, _, _ => rfl
  | Node.bool _, _, _ => rfl
  | Node.noneVal, _, _ => rfl
  | Node.list es, h, d => by
      have h2 : plainList es = true := h
      simp only [fmapE, plainFixList es h2 d]
  | Node.dict es, h, d => by
      have h2 : plainPairs es = true := h
      simp only [fmapE, plainFixPairs es h2 d]
  | Node.tyInt, h, _ => Bool.noConfusion h
  | Node.tyFloat, h, _ => Bool.noConfusion h
  | Node.tyStr, h, _ => Bool.noConfusion h
  | Node.tyBool, h, _ => Bool.noConfusion h
  | Node.pure _, h, _ => Bool.noConfusion h
  | Node.ref _, h, _ => Bool.noConfusion h
  | Node.defRef _, h, _ => Bool.noConfusion h
  | Node.add _, h, _ => Bool.noConfusion h
  | Node.sub _ _, h, _ => Bool.noConfusion h
  | Node.defListAgg _ _ _, h, _ => Bool.noConfusion h
  | Node.range _ _, h, _ => Bool.noConfusion h
  | Node.lockedList _ _, h, _ => Bool.noConfusion h
  | Node.locked _, h, _ => Bool.noConfusion h

/-- List version of plainFix. -/
theorem plainFixList :
    ∀ es : List Node, plainList es = true →
      ∀ d : List (Node × Node), fmapEList (leafResolve d) es = Except.ok es
  | [], _, _ => rfl
  | v :: rest, h, d => by
      have h2 := bool_and_parts h
      simp only [fmapEList, plainFix v h2.1 d, plainFixList rest h2.2 d]

/-- Dict-entry version of plainFix. -/
theorem plainFixPairs :
    ∀ es : List (Node × Node), plainPairs es = true →
      ∀ d : List (Node × Node), fmapEPairs (leafResolve d) es = Except.ok es
  | [], _, _ => rfl
  | (k, v) :: rest, h, d => by
      have h2 := bool_and_parts h
      have h3 := bool_and_parts h2.1
      simp only [fmapEPairs, plainFix k h3.1 d, plainFix v h3.2 d,
        plainFixPairs rest h2.2 d]

end

/-- A failing Python sum always fails with a TypeError. -/
theorem sumFrom_err :
    ∀ (vs : List Node) (acc : Node) (e : Exc),
      sumFrom acc vs = Except.error e → e = Exc.typeError := by
  intro vs
  induction vs with
  | nil => intro acc e h; exact Except.noConfusion h
  | cons v rest ih =>
      intro acc e h
      rw [sumFrom] at h
      cases hp : pyAdd acc v with
      | ok acc2 => rw [hp] at h; exact ih acc2 e h
      | error e2 =>
          rw [hp] at h
          injection h with h2
          have he2 : e2 = Exc.typeError := by
            unfold pyAdd at hp
            split at hp
            · exact Except.noConfusion hp
            · injection hp with h3; exact h3.symm
          rw [← h2, he2]

mutual

/-- A good value resolves to a record-independent result; a good deferred
value resolves successfully, to itself, an int, or a plain value. -/
theorem resolveConst :
    ∀ v : Node, good v = true →
      ∃ e, (∀ d : List (Node × Node), resolve v (Node.dict d) = e)
        ∧ (isDeferredVal v = true →
            ∃ w, e = Except.ok w
              ∧ (w = v ∨ (∃ i : Int, w = Node.int i) ∨ plain w = true))
  | Node.int n, _ =>
      ⟨Except.error Exc.attributeError, fun _ => rfl, fun h => Bool.noConfusion h⟩
  | Node.str _, _ =>
      ⟨Except.error Exc.attributeError, fun _ => rfl, fun h => Bool.noConfusion h⟩
  | Node.bool _, _ =>
      ⟨Except.error Exc.attributeError, fun _ => rfl, fun h => Bool.noConfusion h⟩
  | Node.noneVal, _ =>
      ⟨Except.error Exc.attributeError, fun _ => rfl, fun h => Bool.noConfusion h⟩
  | Node.tyInt, _ =>
      ⟨Except.error Exc.attributeError, fun _ => rfl, fun h => Bool.noConfusion h⟩
  | Node.tyFloat, _ =>
      ⟨Except.error Exc.attributeError, fun _ => rfl, fun h => Bool.noConfusion h⟩
  | Node.tyStr, _ =>
      ⟨Except.error Exc.attributeError, fun _ => rfl, fun h => Bool.noConfusion h⟩
  | Node.tyBool, _ =>
      ⟨Except.error Exc.attributeError, fun _ => rfl, fun h => Bool.noConfusion h⟩
  | Node.list _, _ =>
      ⟨Except.error Exc.attributeError, fun _ => rfl, fun h => Bool.noConfusion h⟩
  | Node.dict _, _ =>
      ⟨Except.error Exc.attributeError, fun _ => rfl, fun h => Bool.noConfusion h⟩
  | Node.range _ _, _ =>
      ⟨Except.error Exc.attributeError, fun _ => rfl, fun h => Bool.noConfusion h⟩
  | Node.lockedList o dr, _ =>
      ⟨Except.ok (Node.locked dr), fun _ => rfl, fun h => Bool.noConfusion h⟩
  | Node.locked es, _ =>
      ⟨Except.ok (Node.locked es), fun _ => rfl, fun h => Bool.noConfusion h⟩
  | Node.pure p, hg => by
      refine ⟨Except.ok p, fun _ => rfl, fun _ => ⟨p, rfl, Or.inr (Or.inr ?_)⟩⟩
      exact hg
  | Node.ref _, hg => Bool.noConfusion hg
  | Node.defRef _, hg => Bool.noConfusion hg
  | Node.defListAgg _ _ _, hg => Bool.noConfusion hg
  | Node.add ts, hg => by
      have hts : goodTerms ts = true := hg
      obtain ⟨vs, hvs⟩ := termsConst ts hts
      cases hsum : sumNodes vs with
      | ok s =>
          obtain ⟨i, rfl⟩ := sumNodes_ok hsum
          refine ⟨Except.ok (Node.int i), fun d => ?_,
            fun _ => ⟨Node.int i, rfl, Or.inr (Or.inl ⟨i, rfl⟩)⟩⟩
          simp only [resolve, hvs d, hsum]
      | error e0 =>
          have he0 : e0 = Exc.typeError := sumFrom_err vs (Node.int 0) e0 hsum
          subst he0
          refine ⟨Except.ok (Node.add ts), fun d => ?_,
            fun _ => ⟨Node.add ts, rfl, Or.inl rfl⟩⟩
          simp only [resolve, hvs d, hsum]
  | Node.sub a b, hg => by
      have hab : (good a && good b) = true := hg
      have hab2 := bool_and_parts hab
      obtain ⟨ea, hea, _⟩ := resolveConst a hab2.1
      obtain ⟨eb, heb, _⟩ := resolveConst b hab2.2
      cases ea with
      | error e1 =>
          refine ⟨Except.ok (Node.sub a b), fun d => ?_,
            fun _ => ⟨Node.sub a b, rfl, Or.inl rfl⟩⟩
          simp only [resolve, hea d]
      | ok x =>
          cases eb with
          | error e2 =>
              refine ⟨Except.ok (Node.sub a b), fun d => ?_,
                fun _ => ⟨Node.sub a b, rfl, Or.inl rfl⟩⟩
              simp only [resolve, hea d, heb d]
          | ok y =>
              cases hp : pySub x y with
              | ok r =>
                  obtain ⟨i, rfl⟩ := pySub_ok hp
                  refine ⟨Except.ok (Node.int i), fun d => ?_,
                    fun _ => ⟨Node.int i, rfl, Or.inr (Or.inl ⟨i, rfl⟩)⟩⟩
                  simp only [resolve, hea d, heb d, hp]
              | error e3 =>
                  refine ⟨Except.ok (Node.sub a b), fun d => ?_,
                    fun _ => ⟨Node.sub a b, rfl, Or.inl rfl⟩⟩
                  simp only [resolve, hea d, heb d, hp]

/-- Good Sum terms all resolve successfully to record-independent values. -/
theorem termsConst :
    ∀ ts : List Node, goodTerms ts = true →
      ∃ vs, ∀ d : List (Node × Node), resolveList ts (Node.dict d) = Except.ok vs
  | [], _ => ⟨[], fun _ => rfl⟩
  | t :: ts, h => by
      have h2 : ((isDeferredVal t && good t) && goodTerms ts) = true := h
      have h3 := bool_and_parts h2
      have h4 := bool_and_parts h3.1
      obtain ⟨e, he, hsh⟩ := resolveConst t h4.2
      obtain ⟨w, rfl, _⟩ := hsh h4.1
      obtain ⟨vs, hvs⟩ := termsConst ts h3.2
      exact ⟨w :: vs, fun d => by simp only [resolveList, he d, hvs d]⟩

end

mutual

/-- The resolution map sends every good value, over any record, to one
record-independent good value that the map then leaves unchanged. -/
theorem stabNode :
    ∀ v : Node, good v = true →
      ∃ w, good w = true
        ∧ (∀ d : List (Node × Node), fmapE (leafResolve d) v = Except.ok w)
        ∧ (∀ d : List (Node × Node), fmapE (leafResolve d) w = Except.ok w)
  | Node.int n, _ => ⟨Node.int n, rfl, fun _ => rfl, fun _ => rfl⟩
  | Node.str s, _ => ⟨Node.str s, rfl, fun _ => rfl, fun _ => rfl⟩
  | Node.bool b, _ => ⟨Node.bool b, rfl, fun _ => rfl, fun _ => rfl⟩
  | Node.noneVal, _ => ⟨Node.noneVal, rfl, fun _ => rfl, fun _ => rfl⟩
  | Node.tyInt, _ => ⟨Node.tyInt, rfl, fun _ => rfl, fun _ => rfl⟩
  | Node.tyFloat, _ => ⟨Node.tyFloat, rfl, fun _ => rfl, fun _ => rfl⟩
  | Node.tyStr, _ => ⟨Node.tyStr, rfl, fun _ => rfl, fun _ => rfl⟩
  | Node.tyBool, _ => ⟨Node.tyBool, rfl, fun _ => rfl, fun _ => rfl⟩
  | Node.pure p, hg => by
      have hp : plain p = true := hg
      exact ⟨p, plain_good p hp, fun _ => rfl, plainFix p hp⟩
  | Node.add ts, hg => by
      obtain ⟨e, he, hsh⟩ := resolveConst (Node.add ts) hg
      obtain ⟨w, rfl, hcase⟩ := hsh rfl
      rcases hcase with h | ⟨i, h⟩ | hpl
      · subst h
        exact ⟨Node.add ts, hg, fun d => he d, fun d => he d⟩
      · subst h
        exact ⟨Node.int i, rfl, fun d => he d, fun _ => rfl⟩
      · exact ⟨w, plain_good w hpl, fun d => he d, plainFix w hpl⟩
  | Node.sub a b, hg => by
      obtain ⟨e, he, hsh⟩ := resolveConst (Node.sub a b) hg
      obtain ⟨w, rfl, hcase⟩ := hsh rfl
      rcases hcase with h | ⟨i, h⟩ | hpl
      · subst h
        exact ⟨Node.sub a b, hg, fun d => he d, fun d => he d⟩
      · subst h
        exact ⟨Node.int i, rfl, fun d => he d, fun _ => rfl⟩
      · exact ⟨w, plain_good w hpl, fun d => he d, plainFix w hpl⟩
  | Node.range mn mx, hg => by
      have h2 := bool_and_parts (show (good mn && good mx) = true from hg)
      obtain ⟨wmn, hgn, hn1, hn2⟩ := stabNode mn h2.1
      obtain ⟨wmx, hgx, hx1, hx2⟩ := stabNode mx h2.2
      refine ⟨Node.range wmn wmx, ?_, fun d => ?_, fun d => ?_⟩
      · show (good wmn && good wmx) = true
        rw [hgn, hgx]
        rfl
      · simp only [fmapE, hn1 d, hx1 d]
      · simp only [fmapE, hn2 d, hx2 d]
  | Node.list es, hg => by
      obtain ⟨ws, hws, h1, h2⟩ := stabList es hg
      exact ⟨Node.list ws, hws, fun d => by simp only [fmapE, h1 d],
        fun d => by simp only [fmapE, h2 d]⟩
  | Node.dict es, hg => by
      obtain ⟨ws, hws, h1, h2⟩ := stabPairs es hg
      exact ⟨Node.dict ws, hws, fun d => by simp only [fmapE, h1 d],
        fun d => by simp only [fmapE, h2 d]⟩
  | Node.locked es, hg => by
      obtain ⟨ws, hws, h1, h2⟩ := stabList es hg
      exact ⟨Node.locked ws, hws, fun d => by simp only [fmapE, h1 d],
        fun d => by simp only [fmapE, h2 d]⟩
  | Node.lockedList o dr, hg => by
      obtain ⟨ws, hws, h1, h2⟩ := stabList dr hg
      exact ⟨Node.locked ws, hws, fun d => by simp only [fmapE, h1 d],
        fun d => by simp only [fmapE, h2 d]⟩
  | Node.ref _, hg => Bool.noConfusion hg
  | Node.defRef _, hg => Bool.noConfusion hg
  | Node.defListAgg _ _ _, hg => Bool.noConfusion hg

/-- List version of stabNode. -/
theorem stabList :
    ∀ es : List Node, goodList es = true →
      ∃ ws, goodList ws = true
        ∧ (∀ d : List (Node × Node), fmapEList (leafResolve d) es = Except.ok ws)
        ∧ (∀ d : List (Node × Node), fmapEList (leafResolve d) ws = Except.ok ws)
  | [], _ => ⟨[], rfl, fun _ => rfl, fun _ => rfl⟩
  | v :: rest, h => by
      have h2 := bool_and_parts (show (good v && goodList rest) = true from h)
      obtain ⟨w, hgw, hw1, hw2⟩ := stabNode v h2.1
      obtain ⟨ws, hgws, hws1, hws2⟩ := stabList rest h2.2
      refine ⟨w :: ws, ?_, fun d => ?_, fun d => ?_⟩
      · show (good w && goodList ws) = true
        rw [hgw, hgws]
        rfl
      · simp only [fmapEList, hw1 d, hws1 d]
      · simp only [fmapEList, hw2 d, hws2 d]

/-- Dict-entry version of stabNode. -/
theorem stabPairs :
    ∀ es : List (Node × Node), goodPairs es = true →
      ∃ ws, goodPairs ws = true
        ∧ (∀ d : List (Node × Node), fmapEPairs (leafResolve d) es = Except.ok ws)
        ∧ (∀ d : List (Node × Node), fmapEPairs (leafResolve d) ws = Except.ok ws)
  | [], _ => ⟨[], rfl, fun _ => rfl, fun _ => rfl⟩
  | (k, v) :: rest, h => by
      have h2 := bool_and_parts
        (show ((good k && good v) && goodPairs rest) = true from h)
      have h3 := bool_and_parts h2.1
      obtain ⟨wk, hgk, hk1, hk2⟩ := stabNode k h3.1
      obtain ⟨wv, hgv, hv1, hv2⟩ := stabNode v h3.2
      obtain ⟨ws, hgws, hws1, hws2⟩ := stabPairs rest h2.2
      refine ⟨(wk, wv) :: ws, ?_, fun d => ?_, fun d => ?_⟩
      · show ((good wk && good wv) && goodPairs ws) = true
        rw [hgk, hgv, hgws]
        rfl
      · simp only [fmapEPairs, hk1 d, hv1 d, hws1 d]
      · simp only [fmapEPairs, hk2 d, hv2 d, hws2 d]

end

/-- A found value is the value of some stored entry. -/
theorem dGetOpt_mem :
    ∀ (d : List (Node × Node)) (k v : Node),
      dGetOpt d k = Option.some v → ∃ k0, (k0, v) ∈ d := by
  intro d
  induction d with
  | nil => intro k v h; exact Option.noConfusion h
  | cons p rest ih =>
      intro k v h
      obtain ⟨k0, v0⟩ := p
      rw [dGetOpt] at h
      cases hk : keyEq k0 k with
      | true =>
          rw [hk] at h
          simp only [if_pos] at h
          injection h with h2
          exact ⟨k0, by rw [← h2]; exact List.mem_cons_self _ _⟩
      | false =>
          rw [hk] at h
          simp only [Bool.false_eq_true, if_false] at h
          obtain ⟨k1, hmem⟩ := ih k v h
          exact ⟨k1, List.mem_cons_of_mem _ hmem⟩

/-- Every entry of an updated dict holds the written value or was already
present. -/
theorem mem_dSet :
    ∀ (d : List (Node × Node)) (k v : Node) (p : Node × Node),
      p ∈ dSet d k v → p.2 = v ∨ p ∈ d := by
  intro d
  induction d with
  | nil =>
      intro k v p h
      rw [dSet] at h
      rcases List.mem_singleton.mp h with rfl
      exact Or.inl rfl
  | cons q rest ih =>
      intro k v p h
      obtain ⟨k0, v0⟩ := q
      rw [dSet] at h
      cases hk : keyEq k0 k with
      | true =>
          rw [hk] at h
          simp only [if_pos] at h
          rcases List.mem_cons.mp h with rfl | h2
          · exact Or.inl rfl
          · exact Or.inr (List.mem_cons_of_mem _ h2)
      | false =>
          rw [hk] at h
          simp only [Bool.false_eq_true, if_false] at h
          rcases List.mem_cons.mp h with rfl | h2
          · exact Or.inr (List.mem_cons_self _ _)
          · rcases ih k v p h2 with h3 | h3
            · exact Or.inl h3
            · exact Or.inr (List.mem_cons_of_mem _ h3)

/-- Updating a present key keeps the key list unchanged. -/
theorem keysOf_dSet :
    ∀ (d : List (Node × Node)) (k v w : Node),
      dGetOpt d k = Option.some w → keysOf (dSet d k v) = keysOf d := by
  intro d
  induction d with
  | nil => intro k v w h; exact Option.noConfusion h
  | cons q rest ih =>
      intro k v w h
      obtain ⟨k0, v0⟩ := q
      rw [dGetOpt] at h
      rw [dSet]
      cases hk : keyEq k0 k with
      | true => simp [hk, keysOf]
      | false =>
          rw [hk] at h
          simp only [Bool.false_eq_true, if_false] at h
          simp only [hk, Bool.false_eq_true, if_false]
          show k0 :: keysOf (dSet rest k v) = k0 :: keysOf rest
          rw [ih k v w h]

/-- Looking up the updated key of a dict that held it yields the new
value. -/
theorem dGetOpt_dSet_self :
    ∀ (d : List (Node × Node)) (k v w : Node),
      dGetOpt d k = Option.some w →
      dGetOpt (dSet d k v) k = Option.some v := by
  intro d
  induction d with
  | nil => intro k v w h; exact Option.noConfusion h
  | cons q rest ih =>
      intro k v w h
      obtain ⟨k0, v0⟩ := q
      rw [dGetOpt] at h
      rw [dSet]
      cases hk : keyEq k0 k with
      | true =>
          simp only [hk, if_pos]
          rw [dGetOpt, hk]
          simp
      | false =>
          rw [hk] at h
          simp only [Bool.false_eq_true, if_false] at h
          simp only [hk, Bool.false_eq_true, if_false]
          rw [dGetOpt, hk]
          simp only [Bool.false_eq_true, if_false]
          exact ih k v w h

/-- Every successful lookup in an updated dict yields the new value or an
old one. -/
theorem dGetOpt_dSet :
    ∀ (d : List (Node × Node)) (k v k2 u : Node),
      dGetOpt (dSet d k v) k2 = Option.some u →
      u = v ∨ dGetOpt d k2 = Option.some u := by
  intro d
  induction d with
  | nil =>
      intro k v k2 u h
      rw [dSet, dGetOpt] at h
      cases hk : keyEq k k2 with
      | true =>
          rw [hk] at h
          simp only [if_pos] at h
          injection h with h2
          exact Or.inl h2.symm
      | false =>
          rw [hk] at h
          simp only [Bool.false_eq_true, if_false] at h
          exact Option.noConfusion h
  | cons q rest ih =>
      intro k v k2 u h
      obtain ⟨k0, v0⟩ := q
      rw [dSet] at h
      cases hk : keyEq k0 k with
      | true =>
          rw [hk] at h
          simp only [if_pos] at h
          rw [dGetOpt] at h
          cases hk2 : keyEq k0 k2 with
          | true =>
              rw [hk2] at h
              simp only [if_pos] at h
              injection h with h2
              exact Or.inl h2.symm
          | false =>
              rw [hk2] at h
              simp only [Bool.false_eq_true, if_false] at h
              refine Or.inr ?_
              rw [dGetOpt, hk2]
              simp only [Bool.false_eq_true, if_false]
              exact h
      | false =>
          rw [hk] at h
          simp only [Bool.false_eq_true, if_false] at h
          rw [dGetOpt] at h
          cases hk2 : keyEq k0 k2 with
          | true =>
              rw [hk2] at h
              simp only [if_pos] at h
              injection h with h2
              refine Or.inr ?_
              rw [dGetOpt, hk2]
              simp only [if_pos]
              rw [h2]
          | false =>
              rw [hk2] at h
              simp only [Bool.false_eq_true, if_false] at h
              rcases ih k v k2 u h with h3 | h3
              · exact Or.inl h3
              · refine Or.inr ?_
                rw [dGetOpt, hk2]
                simp only [Bool.false_eq_true, if_false]
                exact h3

/-- A lookup that succeeded still succeeds after any update. -/
theorem dGetOpt_dSet_exists :
    ∀ (d : List (Node × Node)) (k v k2 w : Node),
      dGetOpt d k2 = Option.some w →
      ∃ u, dGetOpt (dSet d k v) k2 = Option.some u := by
  intro d
  induction d with
  | nil => intro k v k2 w h; exact Option.noConfusion h
  | cons q rest ih =>
      intro k v k2 w h
      obtain ⟨k0, v0⟩ := q
      rw [dGetOpt] at h
      rw [dSet]
      cases hk : keyEq k0 k with
      | true =>
          simp only [hk, if_pos]
          rw [dGetOpt]
          cases hk2 : keyEq k0 k2 with
          | true => exact ⟨v, by simp [hk2]⟩
          | false =>
              rw [hk2] at h
              simp only [Bool.false_eq_true, if_false] at h
              exact ⟨w, by simp only [hk2, Bool.false_eq_true, if_false]; exact h⟩
      | false =>
          simp only [hk, Bool.false_eq_true, if_false]
          rw [dGetOpt]
          cases hk2 : keyEq k0 k2 with
          | true => exact ⟨v0, by simp [hk2]⟩
          | false =>
              rw [hk2] at h
              simp only [Bool.false_eq_true, if_false] at h
              obtain ⟨u, hu⟩ := ih k v k2 w h
              exact ⟨u, by simp only [hk2, Bool.false_eq_true, if_false]; exact hu⟩

/-- A key that appears in the key list and matches itself can be looked
up. -/
theorem dGetOpt_of_mem_keys :
    ∀ (d : List (Node × Node)) (k : Node),
      k ∈ keysOf d → keyEq k k = true → ∃ v, dGetOpt d k = Option.some v := by
  intro d
  induction d with
  | nil => intro k h _; cases h
  | cons q rest ih =>
      intro k h hkr
      obtain ⟨k0, v0⟩ := q
      rw [dGetOpt]
      cases hk : keyEq k0 k with
      | true => exact ⟨v0, by simp [hk]⟩
      | false =>
          simp only [Bool.false_eq_true, if_false]
          rcases List.mem_cons.mp h with rfl | h2
          · exact absurd hkr (by rw [hk]; exact fun he => Bool.noConfusion he)
          · exact ih k h2 hkr

/-- A pass over a record of good values succeeds, keeps the key list,
keeps every value good, and leaves every processed field holding a stable
value. -/
theorem passStab :
    ∀ (ord : List Node) (d : List (Node × Node)) (P : List Node),
      (∀ p ∈ d, good p.2 = true) →
      (∀ k ∈ ord, ∃ v, dGetOpt d k = Option.some v) →
      (∀ k ∈ P, ∀ v, dGetOpt d k = Option.some v → stableVal v) →
      ∃ d2, resolvePassOrd d ord = Except.ok d2
        ∧ keysOf d2 = keysOf d
        ∧ (∀ p ∈ d2, good p.2 = true)
        ∧ (∀ k, (k ∈ P ∨ k ∈ ord) → ∀ v,
            dGetOpt d2 k = Option.some v → stableVal v) := by
  intro ord
  induction ord with
  | nil =>
      intro d P hg _ hP
      refine ⟨d, rfl, rfl, hg, ?_⟩
      intro k hk v hv
      rcases hk with hk | hk
      · exact hP k hk v hv
      · cases hk
  | cons k rest ih =>
      intro d P hg hex hP
      obtain ⟨v0, hv0⟩ := hex k (List.mem_cons_self _ _)
      have hgv0 : good v0 = true := by
        obtain ⟨k0, hmem⟩ := dGetOpt_mem d k v0 hv0
        exact hg (k0, v0) hmem
      obtain ⟨w, hgw, hw1, hw2⟩ := stabNode v0 hgv0
      have hstep : resolveStep d k = Except.ok (dSet d k w) := by
        simp only [resolveStep, hv0, hw1 d]
      have hkeys1 : keysOf (dSet d k w) = keysOf d := keysOf_dSet d k w v0 hv0
      have hg1 : ∀ p ∈ dSet d k w, good p.2 = true := by
        intro p hp
        rcases mem_dSet d k w p hp with h | h
        · rw [h]; exact hgw
        · exact hg p h
      have hstw : stableVal w := ⟨hgw, hw2⟩
      have hex1 : ∀ k2 ∈ rest, ∃ v, dGetOpt (dSet d k w) k2 = Option.some v := by
        intro k2 hk2
        obtain ⟨v2, hv2⟩ := hex k2 (List.mem_cons_of_mem _ hk2)
        exact dGetOpt_dSet_exists d k w k2 v2 hv2
      have hP1 : ∀ k2 ∈ (k :: P), ∀ v,
          dGetOpt (dSet d k w) k2 = Option.some v → stableVal v := by
        intro k2 hk2 v hv
        rcases dGetOpt_dSet d k w k2 v hv with rfl | hold
        · exact hstw
        · rcases List.mem_cons.mp hk2 with rfl | hk2P
          · have hws := dGetOpt_dSet_self d k2 w v0 hv0
            rw [hws] at hv
            injection hv with h2
            rw [← h2]
            exact hstw
          · exact hP k2 hk2P v hold
      obtain ⟨d2, hpass, hkeys2, hg2, hstab2⟩ := ih (dSet d k w) (k :: P) hg1 hex1 hP1
      refine ⟨d2, ?_, ?_, hg2, ?_⟩
      · rw [resolvePassOrd]
        simp only [hstep]
        exact hpass
      · rw [hkeys2, hkeys1]
      · intro k2 hk2 v hv
        apply hstab2 k2 ?_ v hv
        rcases hk2 with hk2 | hk2
        · exact Or.inl (List.mem_cons_of_mem _ hk2)
        · rcases List.mem_cons.mp hk2 with rfl | hk2r
          · exact Or.inl (List.mem_cons_self _ _)
          · exact Or.inr hk2r

/-- A pass over fields that all hold stable values leaves the record
unchanged. -/
theorem passStable :
    ∀ (ord : List Node) (d : List (Node × Node)),
      (∀ k ∈ ord, ∃ v, dGetOpt d k = Option.some v) →
      (∀ k ∈ ord, ∀ v, dGetOpt d k = Option.some v → stableVal v) →
      resolvePassOrd d ord = Except.ok d := by
  intro ord
  induction ord with
  | nil => intro d _ _; rfl
  | cons k rest ih =>
      intro d hex hst
      obtain ⟨v, hv⟩ := hex k (List.mem_cons_self _ _)
      obtain ⟨hgv, hfix⟩ := hst k (List.mem_cons_self _ _) v hv
      have hset := dSet_self d k v hv
      have hstep : resolveStep d k = Except.ok d := by
        simp only [resolveStep, hv, hfix d, hset]
      rw [resolvePassOrd]
      simp only [hstep]
      exact ih d (fun q hq => hex q (List.mem_cons_of_mem _ hq))
        (fun q hq => hst q (List.mem_cons_of_mem _ hq))

/-- C9 (amended): for every record of good values - no references, no
Constant wrapping a deferred node, Sum terms as constructed - whose keys
match themselves (as every primitive key does), and any two queues holding
exactly the record's keys, resolving twice equals resolving once: the
first pass drives every field to a stable value and the second pass is
the identity on the result. -/
theorem C9_amended (d : List (Node × Node)) (ord1 ord2 : List Node)
    (hg : ∀ p ∈ d, good p.2 = true)
    (hkr : ∀ k ∈ keysOf d, keyEq k k = true)
    (h1 : ∀ k, k ∈ ord1 ↔ k ∈ keysOf d)
    (h2 : ∀ k, k ∈ ord2 ↔ k ∈ keysOf d) :
    (match resolvePassOrd d ord1 with
     | Except.ok d1 => resolvePassOrd d1 ord2
     | Except.error e => Except.error e) = resolvePassOrd d ord1 := by
  have hex1 : ∀ k ∈ ord1, ∃ v, dGetOpt d k = Option.some v := by
    intro k hk
    have hkm := (h1 k).mp hk
    exact dGetOpt_of_mem_keys d k hkm (hkr k hkm)
  obtain ⟨d2, hpass, hkeys, hg2, hstab⟩ :=
    passStab ord1 d [] hg hex1 (fun k hk => absurd hk (List.not_mem_nil k))
  rw [hpass]
  show resolvePassOrd d2 ord2 = Except.ok d2
  apply passStable
  · intro k hk
    have hkm : k ∈ keysOf d := (h2 k).mp hk
    have hkm2 : k ∈ keysOf d2 := by rw [hkeys]; exact hkm
    exact dGetOpt_of_mem_keys d2 k hkm2 (hkr k hkm)
  · intro k hk v hv
    apply hstab k ?_ v hv
    exact Or.inr ((h1 k).mpr ((h2 k).mp hk))

/-- Witness for C9 at a record of a Constant 3 and a Range(2, 4), with
both queues the key list itself. -/
theorem C9_amended_w :
    (match resolvePassOrd goodRecW (keysOf goodRecW) with
     | Except.ok d1 => resolvePassOrd d1 (keysOf goodRecW)
     | Except.error e => Except.error e) =
      resolvePassOrd goodRecW (keysOf goodRecW) :=
  C9_amended goodRecW (keysOf goodRecW) (keysOf goodRecW)
    (by decide) (by decide) (fun _ => Iff.rfl) (fun _ => Iff.rfl)

end Strategize
